import Mathlib

/-! # cancel-previous-workflows: `runoverworkflows.go`

A shallow embedding of the Go program `src/runoverworkflows.go` and the
properties of its filter-and-cancel pipeline.

Conventions of the embedding.

* Go `string` is Lean `String`. `strings.Replace` is followed on the characters (on valid
  UTF-8 a substring is found at the same place on bytes and on characters), `strconv.Atoi`
  on the UTF-8 bytes.
* Go `int` / `int64` values that are only compared are Lean `Int`; where the
  library relies on machine arithmetic (`strconv`) the word size is explicit.
* A Go `error` is its message, `nil` is `none`.
* Everything the program obtains from outside (environment, URL parsing, the
  HTTP round trips, JSON decoding) is a field of `World`.
-/

namespace RunOverWorkflows

/-! ## Data model -/

/-- A Go `error`, identified with its message. -/
abbrev GoError := String

/-- The struct `WorkflowRun` (lines 18-24). -/
structure WorkflowRun where
  Id : Int
  Status : String
  HeadSha : String
  HeadBranch : String
  RunNumber : Int
deriving DecidableEq

/-- The struct `WorkflowRunsResponse` (lines 26-28). -/
structure WorkflowRunsResponse where
  WorkflowRuns : List WorkflowRun
deriving DecidableEq

/-- The part of `url.URL` the program touches: the parsed location and its raw query. -/
structure URL where
  Location : String
  RawQuery : String
deriving DecidableEq

/-- The part of `http.Request` the program touches. -/
structure Request where
  Method : String
  URL : URL
  Header : List (String × String)
deriving DecidableEq

/-- A response body, summarised by what `ioutil.ReadAll` returns for it: the bytes read and
the read error, if any. -/
structure Body where
  data : String
  err : Option GoError
deriving DecidableEq

/-- The part of `http.Response` the program touches. -/
structure Response where
  StatusCode : Int
  Body : Body
deriving DecidableEq

/-- Everything the program obtains from its surroundings. -/
structure World where
  /-- Stands for `os.Getenv`. -/
  Getenv : String → String
  /-- Stands for `url.Parse` as called by `http.NewRequest`. -/
  urlParse : String → Except GoError URL
  /-- Stands for `query := u.Query(); query.Set("branch", b); query.Encode()` on a raw query. -/
  setBranch : String → String → String
  /-- Stands for `httpClient.Do`; the first argument numbers the caller (0 is `main`, `k + 1` is
  the goroutine launched `k`-th), so that every call may be answered on its own. -/
  Do : Nat → Request → Except GoError Response
  /-- Stands for `json.Unmarshal` into a `WorkflowRunsResponse`. -/
  Unmarshal : String → Except GoError WorkflowRunsResponse

/-- The constant `http.StatusAccepted`. -/
def StatusAccepted : Int := 202

/-- The verb `%d` of `fmt.Sprintf` on an integer. -/
def fmtD (i : Int) : String := toString i

/-! ## `strings.Replace`

Line 33 calls `strings.Replace(ref, "refs/heads/", "", 1)`. The function and the two it calls,
`Count` and `Index`, belong to the Go standard library (`strings/strings.go`) and are embedded
from there. -/

/-- Embeds `strings.Index`: the least position at which `substr` occurs in `s`; Go's `-1` is
`none`. -/
def Index : List Char → List Char → Option Nat
  | [], substr => if substr = [] then some 0 else none
  | c :: s, substr =>
    if substr.isPrefixOf (c :: s) then some 0 else (Index s substr).map (· + 1)

/-- The loop of `strings.Count` for a non-empty `substr`: `n++` and
`s = s[i+len(substr):]` for as long as `Index` finds an occurrence. Every round removes at
least one character, so `len(s) + 1` rounds of fuel are never used up. -/
def countLoop (substr : List Char) : Nat → List Char → Nat
  | 0, _ => 0
  | fuel + 1, s =>
    match Index s substr with
    | none => 0
    | some i => 1 + countLoop substr fuel (s.drop (i + substr.length))

/-- Embeds `strings.Count`: the number of non-overlapping occurrences, and the number of
characters plus one for the empty `substr`. -/
def Count (s substr : List Char) : Nat :=
  if substr = [] then s.length + 1 else countLoop substr (s.length + 1) s

/-- The replacement loop of `strings.Replace`, `n` rounds on the unwritten rest `s[start:]`:
`j` is the start of the next occurrence (`j += Index(s[start:], old)`, or the width of one
character after the first round for an empty `old`), `s[start:j]` and `new` are written, and
`start = j + len(old)`; what is left is written at the end. `first` tells the round `i = 0`.
The caller bounds `n` by `Count`, so `Index` finds an occurrence in every round. -/
def replaceLoop (old new : List Char) : Nat → Bool → List Char → List Char
  | 0, _, rest => rest
  | n + 1, first, rest =>
    let j :=
      if old.length = 0 then (if first then 0 else min 1 rest.length)
      else (Index rest old).getD 0
    rest.take j ++ new ++ replaceLoop old new n false (rest.drop (j + old.length))

/-- Embeds `strings.Replace` on character sequences: `s` itself when `old == new`, `n == 0`
or `Count(s, old) == 0`; otherwise `n` is cut to the count (a negative `n` stands for all)
and the loop runs. -/
def replaceChars (s old new : List Char) (n : Int) : List Char :=
  if old = new ∨ n = 0 then s
  else
    let m := Count s old
    if m = 0 then s
    else
      let n := if n < 0 ∨ (m : Int) < n then m else n.toNat
      replaceLoop old new n true s

/-- Embeds `strings.Replace`. -/
def Replace (s old new : String) (n : Int) : String :=
  String.mk (replaceChars s.data old.data new.data n)

/-- The initialiser of `branchName` (line 33) as a function of the value of `GITHUB_REF`. -/
def branchNameOf (ref : String) : String := Replace ref "refs/heads/" "" 1

/-! ## `strconv.Atoi`

Line 35 calls `strconv.Atoi` and drops its error. `Atoi`, `ParseInt` and `ParseUint` belong
to the Go standard library (`strconv/atoi.go`) and are embedded from there, for base 10 and
`bitSize` 0, with the width `intSize` of `int` as a parameter. -/

/-- The bytes of a Go string. -/
def bytesOf (s : String) : List Nat := s.toUTF8.data.toList.map UInt8.toNat

/-- The `Err` field of a `*strconv.NumError`. -/
inductive NumError
  | ErrSyntax
  | ErrRange
deriving DecidableEq

/-- The conversion `uint64(x)`: the value modulo `2^64`. -/
def uint64 (x : Nat) : Nat := x % 2 ^ 64

/-- The conversion to a signed integer of `bits` bits: the value wrapped into
`[-2^(bits-1), 2^(bits-1))`. -/
def wrapInt (bits : Nat) (x : Int) : Int :=
  (x + 2 ^ (bits - 1)) % 2 ^ bits - 2 ^ (bits - 1)

/-- The constant `maxUint64`. -/
def maxUint64 : Nat := 2 ^ 64 - 1

/-- The function `lower` of `strconv`: `c | ('x' - 'X')`. -/
def lower (c : Nat) : Nat := c ||| 0x20

/-- The loop of `ParseUint` for base 10 (so `base0` is false and no underscore is accepted);
`n` is the value read so far. A byte gives a digit value `d` or a syntax error; `d >= base`
is a syntax error; `n >= cutoff` (with `cutoff = maxUint64/10 + 1`) and, after `n *= 10`,
`n1 := n + d` with `n1 < n || n1 > maxVal` are range errors returning `maxVal` at once. -/
def parseUintLoop (maxVal : Nat) : List Nat → Nat → Nat × Option NumError
  | [], n => (n, none)
  | c :: rest, n =>
    let digit : Option Nat :=
      if 48 ≤ c ∧ c ≤ 57 then some (c - 48)
      else if 97 ≤ lower c ∧ lower c ≤ 122 then some (lower c - 97 + 10)
      else none
    match digit with
    | none => (0, some .ErrSyntax)
    | some d =>
      if d ≥ 10 then (0, some .ErrSyntax)
      else if n ≥ maxUint64 / 10 + 1 then (maxVal, some .ErrRange)
      else
        let n10 := uint64 (n * 10)
        let n1 := uint64 (n10 + d)
        if n1 < n10 ∨ n1 > maxVal then (maxVal, some .ErrRange)
        else parseUintLoop maxVal rest n1

/-- Embeds `strconv.ParseUint(s, 10, 0)` on a platform whose `int` has `intSize` bits. -/
def ParseUint (intSize : Nat) (s : List Nat) : Nat × Option NumError :=
  if s = [] then (0, some .ErrSyntax)
  else
    -- `bitSize == 0` stands for `IntSize`; `maxVal := uint64(1)<<uint(bitSize) - 1`
    let maxVal := uint64 (uint64 (2 ^ intSize) + maxUint64)
    parseUintLoop maxVal s 0

/-- The range check that ends `ParseInt`, on the sign `neg` and the magnitude `un` read by
`ParseUint`: the bound of the type with a range error when `un` is too large, the signed value
otherwise. -/
def parseIntRange (intSize : Nat) (neg : Bool) (un : Nat) : Int × Option NumError :=
  let cutoff := uint64 (2 ^ (intSize - 1))
  if neg = false ∧ un ≥ cutoff then (wrapInt 64 ((cutoff : Int) - 1), some .ErrRange)
  else if neg = true ∧ un > cutoff then (wrapInt 64 (-(wrapInt 64 cutoff)), some .ErrRange)
  else
    let n := wrapInt 64 un
    (if neg then wrapInt 64 (-n) else n, none)

/-- Embeds `strconv.ParseInt(s, 10, 0)` on a platform whose `int` has `intSize` bits: the
empty string is a syntax error, a leading `+` or `-` is picked off, a syntax error of
`ParseUint` is passed on with value 0, and anything else goes to the range check. -/
def ParseInt (intSize : Nat) (s : List Nat) : Int × Option NumError :=
  match s with
  | [] => (0, some .ErrSyntax)
  | c :: rest =>
    -- pick off the leading sign
    let neg : Bool := c = 45
    let s1 := if c = 43 then rest else if c = 45 then rest else c :: rest
    let r := ParseUint intSize s1
    -- `err != nil && err.(*NumError).Err != ErrRange`
    if r.2 ≠ none ∧ r.2 ≠ some .ErrRange then (0, r.2)
    else parseIntRange intSize neg r.1

/-- The loop of the fast path of `Atoi`: `ch -= '0'` on a byte, then `n = n*10 + int(ch)`
on `int`; `none` is the syntax error. -/
def atoiFastLoop (intSize : Nat) : List Nat → Int → Option Int
  | [], n => some n
  | ch :: rest, n =>
    let ch := (ch + 256 - 48) % 256
    if ch > 9 then none
    else atoiFastLoop intSize rest (wrapInt intSize (n * 10 + ch))

/-- Embeds `strconv.Atoi` on a platform whose `int` has `intSize` bits (32 or 64): the value
and the `Err` of the error returned. Strings of 1 to 9 bytes (18 on 64 bits) take the fast
path, all others go through `ParseInt(s, 10, 0)` and the conversion `int(i64)`. -/
def Atoi (intSize : Nat) (s : List Nat) : Int × Option NumError :=
  let sLen := s.length
  if (intSize = 32 ∧ 0 < sLen ∧ sLen < 10) ∨ (intSize = 64 ∧ 0 < sLen ∧ sLen < 19) then
    -- fast path for small integers that fit the type
    let signed : Bool := s.head? = some 45 ∨ s.head? = some 43
    let s1 := if signed then s.tail else s
    if signed ∧ s1.length < 1 then (0, some .ErrSyntax)
    else
      match atoiFastLoop intSize s1 0 with
      | none => (0, some .ErrSyntax)
      | some n => (if s.head? = some 45 then wrapInt intSize (-n) else n, none)
  else
    -- slow path for invalid, big, or underscored integers
    match ParseInt intSize s with
    | (i64, err) => (wrapInt intSize i64, err)

/-- The initialiser of `currentRunNumber` (line 35) as a function of the value of
`GITHUB_RUN_NUMBER`: the value returned by `Atoi`, its error dropped. -/
def currentRunNumberOf (intSize : Nat) (value : String) : Int :=
  (Atoi intSize (bytesOf value)).1

/-! ## Package-level variables (lines 31-35)

`branchName` and `currentRunNumber` are computed by the library routines embedded above
(`Replace`, `Atoi`); the pipeline only reads the five values. -/

/-- The package-level variables `githubRepo`, `githubToken`, `branchName`, `currentSha` and
`currentRunNumber`, fixed once the process has started. -/
structure Globals where
  githubRepo : String
  githubToken : String
  branchName : String
  currentSha : String
  currentRunNumber : Int
deriving DecidableEq

/-- The package-level variables as their initialisers compute them from the environment
(lines 31-35), on a platform whose `int` has `intSize` bits. -/
def initGlobals (intSize : Nat) (w : World) : Globals :=
  { githubRepo := w.Getenv "GITHUB_REPOSITORY"
    githubToken := w.Getenv "GITHUB_TOKEN"
    branchName := branchNameOf (w.Getenv "GITHUB_REF")
    currentSha := w.Getenv "GITHUB_SHA"
    currentRunNumber := currentRunNumberOf intSize (w.Getenv "GITHUB_RUN_NUMBER") }

/-! ## The CI client: `githubRequest` and `cancelWorkflow` -/

/-- Embeds `http.NewRequest(method, url, nil)`: the only failure the program can meet is the
URL not parsing (both methods it uses are valid). -/
def NewRequest (w : World) (method url : String) : Except GoError Request :=
  match w.urlParse url with
  | .error e => .error e
  | .ok u => .ok { Method := method, URL := u, Header := [] }

/-- Embeds `Header.Set`: replaces the value stored under the key, or adds the key. -/
def headerSet (h : List (String × String)) (key value : String) : List (String × String) :=
  (h.filter fun kv => kv.1 ≠ key) ++ [(key, value)]

/-- The request after the two `Header.Set` calls of lines 39-40. -/
def withHeaders (g : Globals) (request : Request) : Request :=
  let h1 := headerSet request.Header "Accept" "application/vnd.github.v3+json"
  let h2 := headerSet h1 "Authorization" ("token " ++ g.githubToken)
  { request with Header := h2 }

/-- Embeds `githubRequest` (lines 38-46); `k` numbers the caller for `World.Do`. -/
def githubRequest (w : World) (g : Globals) (k : Nat) (request : Request) :
    Except GoError Response :=
  match w.Do k (withHeaders g request) with
  | .error err => .error err
  | .ok response => .ok response

/-- The URL formatted on lines 49-50. -/
def cancelURL (g : Globals) (id : Int) : String :=
  "https://api.github.com/repos/" ++ g.githubRepo ++ "/actions/runs/" ++ fmtD id ++ "/cancel"

/-- The message formatted on line 60. -/
def cancelFailure (id : Int) (statusCode : Int) (body : String) : String :=
  "failed to cancel workflow #" ++ fmtD id ++ ", status code: " ++ fmtD statusCode
    ++ ", body: " ++ body

/-- Embeds `cancelWorkflow` (lines 48-63); the result is the returned `error`. -/
def cancelWorkflow (w : World) (g : Globals) (k : Nat) (id : Int) : Option GoError :=
  match NewRequest w "POST" (cancelURL g id) with
  | .error err => some err
  | .ok request =>
    match githubRequest w g k request with
    | .error err => some err
    | .ok response =>
      if response.StatusCode ≠ StatusAccepted then
        -- `body, _ := ioutil.ReadAll(response.Body)`: the read error is dropped
        let body := response.Body.data
        some (cancelFailure id response.StatusCode body)
      else none

/-! ## The orchestrator: `main` -/

/-- The four `continue` guards of the loop body (lines 96-107): `true` when the iteration
is abandoned before anything is dispatched. -/
def skips (g : Globals) (run : WorkflowRun) : Bool :=
  if run.Status = "completed" then true
  else if run.HeadBranch ≠ g.branchName then true
  else if run.HeadSha = g.currentSha then true
  else if g.currentRunNumber ≠ 0 ∧ run.RunNumber > g.currentRunNumber then true
  else false

/-- One goroutine launched on line 110: the loop variable `run` of the iteration that launched
it, the `id` it was given (line 115) and the error it logged (line 113), if `cancelWorkflow`
returned one. -/
structure TaskReport where
  run : WorkflowRun
  id : Int
  logged : Option GoError
deriving DecidableEq

/-- What one execution of `main` leaves behind: the lines logged by the main goroutine, in
order, and one report per goroutine launched, in launch order. The goroutines run
concurrently; their timing relative to each other and to `wg.Wait()` is the subject of the
section on the completion barrier. -/
structure Outcome where
  log : List String
  tasks : List TaskReport
deriving DecidableEq

/-- The line logged on line 108. -/
def cancelingLine (g : Globals) (id : Int) : String :=
  "canceling run https://github.com/" ++ g.githubRepo ++ "/actions/runs/" ++ fmtD id

/-- The `for` loop of lines 95-116: what remains to be done with the runs still to visit,
given what has been logged and launched so far. -/
def mainLoop (w : World) (g : Globals) : List WorkflowRun → Outcome → Outcome
  | [], acc => acc
  | run :: rest, acc =>
    if skips g run then mainLoop w g rest acc
    else
      let k := acc.tasks.length
      mainLoop w g rest
        { log := acc.log ++ [cancelingLine g run.Id]
          tasks := acc.tasks ++
            [{ run := run, id := run.Id, logged := cancelWorkflow w g (k + 1) run.Id }] }

/-- The line logged on line 71. -/
def listingLine (g : Globals) : String :=
  "listing runs for branch " ++ g.branchName ++ " in repo " ++ g.githubRepo

/-- The URL formatted on line 72. -/
def listURL (g : Globals) : String :=
  "https://api.github.com/repos/" ++ g.githubRepo ++ "/actions/runs"

/-- Lines 77-79: the `branch` parameter is set in the query of the request's URL. -/
def listRequest (w : World) (g : Globals) (request : Request) : Request :=
  { request with
    URL := { request.URL with RawQuery := w.setBranch request.URL.RawQuery g.branchName } }

/-- Lines 72-94 of `main`, the listing call: the decoded runs, or the error that makes `main`
log and return. -/
def listRuns (w : World) (g : Globals) : Except GoError (List WorkflowRun) :=
  match NewRequest w "GET" (listURL g) with
  | .error err => .error err
  | .ok request =>
    match githubRequest w g 0 (listRequest w g request) with
    | .error err => .error err
    | .ok response =>
      -- `body, err := ioutil.ReadAll(response.Body)`
      match response.Body.err with
      | some err => .error err
      | none =>
        match w.Unmarshal response.Body.data with
        | .error err => .error err
        | .ok workflows => .ok workflows.WorkflowRuns

/-- Embeds `main` (lines 66-118). The function is total: every path of the Go function
reaches a `return` or the end of the body, none calls `os.Exit`, `log.Fatal` or `panic`. -/
def main (w : World) (g : Globals) : Outcome :=
  let log0 := [listingLine g]
  match listRuns w g with
  | .error err => { log := log0 ++ [err], tasks := [] }
  | .ok runs => mainLoop w g runs { log := log0, tasks := [] }

/-- The whole program: the package-level variables are initialised, then `main` runs. -/
def program (intSize : Nat) (w : World) : Outcome := main w (initGlobals intSize w)

/-- The ids handed to `cancelWorkflow`, one per goroutine launched, in launch order. -/
def Outcome.cancelCalls (o : Outcome) : List Int := o.tasks.map TaskReport.id

/-- The runs whose iteration launched a goroutine, in launch order. -/
def Outcome.selectedRuns (o : Outcome) : List WorkflowRun := o.tasks.map TaskReport.run

/-! ## The filter policy in the words of the specification -/

/-- Eligibility as the specification words it (section 4.2): all four conditions hold. -/
def Eligible (g : Globals) (run : WorkflowRun) : Prop :=
  run.Status ≠ "completed" ∧ run.HeadBranch = g.branchName ∧ run.HeadSha ≠ g.currentSha ∧
    (g.currentRunNumber = 0 ∨ run.RunNumber ≤ g.currentRunNumber)

instance (g : Globals) (run : WorkflowRun) : Decidable (Eligible g run) := by
  unfold Eligible; infer_instance

/-- The world `w` with the answers to the goroutines' requests replaced: the goroutine launched
`k`-th (counting from 0) is answered by `outcomes k`; the listing call is answered as in `w`. -/
def World.answering (w : World) (outcomes : Nat → Request → Except GoError Response) : World :=
  { w with Do := fun k => if k = 0 then w.Do 0 else outcomes (k - 1) }

/-- The ways in which the listing call of lines 72-94 fails with the error `e`, as the
specification lists them: request construction, transport, reading the body, decoding. -/
def ListingFails (w : World) (g : Globals) (e : GoError) : Prop :=
  w.urlParse (listURL g) = .error e ∨
  ∃ request, NewRequest w "GET" (listURL g) = .ok request ∧
    (w.Do 0 (withHeaders g (listRequest w g request)) = .error e ∨
     ∃ response, w.Do 0 (withHeaders g (listRequest w g request)) = .ok response ∧
      (response.Body.err = some e ∨
       (response.Body.err = none ∧ w.Unmarshal response.Body.data = .error e)))

/-! ## Decimal literals, in the words of the specification -/

/-- A byte that is a decimal digit. -/
def isDigit (b : Nat) : Bool := decide (48 ≤ b ∧ b ≤ 57)

/-- The number denoted by the digits `ds`, read after a number `n`. -/
def decimalFrom (n : Nat) (ds : List Nat) : Nat := ds.foldl (fun n b => n * 10 + (b - 48)) n

/-- The number denoted by the digits `ds`. -/
def decimal (ds : List Nat) : Nat := decimalFrom 0 ds

/-- The value without its sign byte, if it has one. -/
def unsignedPart (s : List Nat) : List Nat :=
  if s.head? = some 43 ∨ s.head? = some 45 then s.tail else s

/-- The digits the unsigned part of the value starts with. -/
def leadingDigits (s : List Nat) : List Nat := (unsignedPart s).takeWhile isDigit

/-- The integer a value denotes when it is a decimal literal: an optional sign followed by
one or more digits and nothing else. -/
def literalValue (s : List Nat) : Option Int :=
  if unsignedPart s ≠ [] ∧ (unsignedPart s).all isDigit then
    some (if s.head? = some 45 then -(decimal (unsignedPart s) : Int)
      else (decimal (unsignedPart s) : Int))
  else none

/-- The value `Atoi` returns, case by case: the bound of `int` on the side of the sign as soon
as the leading digits exceed the unsigned word; otherwise 0 unless the value is a literal;
otherwise the literal, cut to the range of `int`. -/
def atoiValue (intSize : Nat) (s : List Nat) : Int :=
  let neg : Bool := s.head? = some 45
  let v := decimal (leadingDigits s)
  if 2 ^ intSize ≤ v then (if neg then -2 ^ (intSize - 1) else 2 ^ (intSize - 1) - 1)
  else if unsignedPart s = [] ∨ (unsignedPart s).all isDigit = false then 0
  else if neg = false ∧ 2 ^ (intSize - 1) ≤ v then 2 ^ (intSize - 1) - 1
  else if neg = true ∧ 2 ^ (intSize - 1) < v then -2 ^ (intSize - 1)
  else if neg then -(v : Int) else (v : Int)

/-! ## The completion barrier: goroutines, the `WaitGroup` and their interleavings

The loop of `main` and the goroutines it launches, as a transition system. A state holds
the position of the main goroutine, the counter of `wg`, and the goroutines launched so far
with their positions; a scheduler picks, step by step, which goroutine moves. `wg.Add` and
`wg.Done` are atomic, `wg.Wait` returns only when the counter is zero, and the process ends
when `main` returns. -/

/-- Where a launched goroutine (lines 110-115) stands. -/
inductive TaskPc
  /-- Launched; `cancelWorkflow` has not returned yet. -/
  | started
  /-- The call `cancelWorkflow(id)` has returned `err` (logged if not nil); the deferred
  `wg.Done()` has not run yet. -/
  | returned (err : Option GoError)
  /-- The deferred `wg.Done()` has run: the goroutine has finished. -/
  | finished (err : Option GoError)
deriving DecidableEq

/-- A goroutine launched on line 110. -/
structure Task where
  run : WorkflowRun
  id : Int
  pc : TaskPc
deriving DecidableEq

/-- Where the main goroutine stands. -/
inductive MainPc
  /-- At the head of the `for` loop (line 95) with `rest` still to visit. -/
  | looping (rest : List WorkflowRun)
  /-- Past `wg.Add(1)` (line 109) for `run`, before the `go` statement (line 110). -/
  | added (run : WorkflowRun) (rest : List WorkflowRun)
  /-- Inside `wg.Wait()` (line 117). -/
  | waiting
  /-- The function `main` has returned and the process has ended. -/
  | exited
deriving DecidableEq

/-- A state of the concurrent execution. `wg` is the counter of the `WaitGroup` of line 36;
`adds` and `dones` count the calls of `wg.Add(1)` and `wg.Done()` executed so far; `panicked`
records the panic of `WaitGroup.Add` on a negative counter. -/
structure ConcState where
  pc : MainPc
  wg : Int
  panicked : Bool
  adds : Nat
  dones : Nat
  tasks : List Task
  log : List String
deriving DecidableEq

/-- A choice of the scheduler: the main goroutine moves, or the goroutine launched `k`-th. -/
inductive Action
  | main
  | task (k : Nat)
deriving DecidableEq

/-- Embeds `WaitGroup.Add(delta)`: the counter moves by `delta`, and a negative counter
panics. -/
def wgAdd (delta : Int) (s : ConcState) : ConcState :=
  { s with wg := s.wg + delta
           panicked := s.panicked || decide (s.wg + delta < 0) }

/-- The state in which `main` enters the loop with the listing `runs`; `log` is what `main`
has logged before. -/
def ConcState.init (runs : List WorkflowRun) (log : List String) : ConcState :=
  { pc := .looping runs, wg := 0, panicked := false, adds := 0, dones := 0, tasks := [],
    log := log }

/-- One step of the main goroutine; `none` when it cannot move (blocked in `wg.Wait()`, or
returned). -/
def stepMain (g : Globals) (s : ConcState) : Option ConcState :=
  match s.pc with
  | .looping [] => some { s with pc := .waiting }
  | .looping (run :: rest) =>
    if skips g run then some { s with pc := .looping rest }
    else
      some (wgAdd 1 { s with pc := .added run rest
                             log := s.log ++ [cancelingLine g run.Id]
                             adds := s.adds + 1 })
  | .added run rest =>
    some { s with pc := .looping rest
                  tasks := s.tasks ++ [{ run := run, id := run.Id, pc := .started }] }
  | .waiting => if s.wg = 0 then some { s with pc := .exited } else none
  | .exited => none

/-- One step of the goroutine launched `k`-th; `none` when it cannot move (not launched, or
finished). The call of `cancelWorkflow` is one step: it shares nothing with the other
goroutines, and the timeout of the client (line 69) makes it return. -/
def stepTask (w : World) (g : Globals) (s : ConcState) (k : Nat) : Option ConcState :=
  match s.tasks[k]? with
  | none => none
  | some t =>
    match t.pc with
    | .started =>
      some { s with
        tasks := s.tasks.set k { t with pc := .returned (cancelWorkflow w g (k + 1) t.id) } }
    | .returned err =>
      some (wgAdd (-1) { s with tasks := s.tasks.set k { t with pc := .finished err }
                                dones := s.dones + 1 })
    | .finished _ => none

/-- One step of the system. Nothing moves once `main` has returned (the process has ended) or
after a panic. -/
def step (w : World) (g : Globals) (s : ConcState) (a : Action) : Option ConcState :=
  if s.pc = .exited ∨ s.panicked = true then none
  else
    match a with
    | .main => stepMain g s
    | .task k => stepTask w g s k

/-- The state a schedule leads to, `none` if it asks a goroutine to move that cannot. -/
def exec (w : World) (g : Globals) : ConcState → List Action → Option ConcState
  | s, [] => some s
  | s, a :: rest =>
    match step w g s a with
    | none => none
    | some s' => exec w g s' rest

/-- A goroutine that has run its deferred `wg.Done()`. -/
def Task.isFinished (t : Task) : Bool :=
  match t.pc with
  | .finished _ => true
  | _ => false

/-- The number of goroutines launched that have not finished. -/
def ConcState.unfinished (s : ConcState) : Nat :=
  (s.tasks.filter fun t => !t.isFinished).length

/-- The report a finished execution leaves of the goroutine launched `k`-th. -/
def Task.report (t : Task) : Option TaskReport :=
  match t.pc with
  | .finished err => some { run := t.run, id := t.id, logged := err }
  | _ => none

/-- What the counter of `wg` owes to the main goroutine: 1 between `wg.Add(1)` and the `go`
statement, 0 elsewhere. -/
def MainPc.pending : MainPc → Nat
  | .added _ _ => 1
  | _ => 0

/-- The bookkeeping of the `WaitGroup` in a state: no panic, one `Add(1)` per goroutine
launched or about to be, one `Done()` per goroutine finished, the counter their difference,
and after `main` has returned every goroutine has finished. -/
structure ConcState.Sound (s : ConcState) : Prop where
  noPanic : s.panicked = false
  adds_eq : s.adds = s.tasks.length + s.pc.pending
  dones_eq : s.dones = s.tasks.countP Task.isFinished
  counter_eq : s.wg = (s.adds : Int) - (s.dones : Int)
  exited : s.pc = .exited → ∀ t ∈ s.tasks, t.isFinished = true

/-- The steps a goroutine still has to take. -/
def TaskPc.weight : TaskPc → Nat
  | .started => 2
  | .returned _ => 1
  | .finished _ => 0

/-- The steps the main goroutine still has to take, counting 2 for every goroutine it will
launch at most. -/
def MainPc.weight : MainPc → Nat
  | .looping rest => 4 * rest.length + 2
  | .added _ rest => 4 * rest.length + 5
  | .waiting => 1
  | .exited => 0

/-- A bound on the number of steps left in a state. -/
def ConcState.weight (s : ConcState) : Nat :=
  s.pc.weight + (s.tasks.map fun t => t.pc.weight).sum

/-- The runs the loop has still to visit. -/
def MainPc.rest : MainPc → List WorkflowRun
  | .looping rest => rest
  | .added _ rest => rest
  | _ => []

/-- The goroutines launched, the one that follows a `wg.Add(1)` already counted. -/
def ConcState.launched (s : ConcState) : List Task :=
  match s.pc with
  | .added run _ => s.tasks ++ [{ run := run, id := run.Id, pc := .started }]
  | _ => s.tasks

/-- The reports that `mainLoop` files for the goroutines `ts`, launched as numbers `n`,
`n + 1`, ... -/
def reportsFrom (w : World) (g : Globals) (n : Nat) : List Task → List TaskReport
  | [] => []
  | t :: ts =>
    { run := t.run, id := t.id, logged := cancelWorkflow w g (n + 1) t.id }
      :: reportsFrom w g (n + 1) ts

/-- How a state of the concurrent execution relates to `mainLoop`: finishing the loop from
what has been logged and launched gives `final`, and every goroutine that has called
`cancelWorkflow` holds the result `mainLoop` reports for it. -/
structure ConcState.Linked (w : World) (g : Globals) (final : Outcome) (s : ConcState) :
    Prop where
  loop : mainLoop w g s.pc.rest { log := s.log, tasks := reportsFrom w g 0 s.launched } = final
  results : ∀ (k : Nat) (t : Task), s.tasks[k]? = some t →
    t.pc = .started ∨ t.pc = .returned (cancelWorkflow w g (k + 1) t.id) ∨
      t.pc = .finished (cancelWorkflow w g (k + 1) t.id)

/-! ## Concrete scenarios -/

/-- The three runs of the scenario of section 8; fields the scenario leaves out are empty. -/
def scenarioRuns : List WorkflowRun :=
  [ { Id := 1, Status := "completed", HeadSha := "", HeadBranch := "", RunNumber := 5 },
    { Id := 2, Status := "in_progress", HeadSha := "abc", HeadBranch := "main", RunNumber := 3 },
    { Id := 3, Status := "queued", HeadSha := "same-as-current", HeadBranch := "main",
      RunNumber := 4 } ]

/-- The current identity of the scenario of section 8. -/
def scenarioGlobals : Globals :=
  { githubRepo := "o/r", githubToken := "t", branchName := "main",
    currentSha := "same-as-current", currentRunNumber := 6 }

/-- A world in which every URL parses, the listing is answered with status `listStatus` and
body `listBody`, the body decodes as `decode` says, and the goroutine launched `k`-th gets
the status code `codes k` with body `"no"`. -/
def worldOf (listStatus : Int) (listBody : String)
    (decode : String → Except GoError WorkflowRunsResponse) (codes : Nat → Int) : World :=
  { Getenv := fun _ => ""
    urlParse := fun u => .ok { Location := u, RawQuery := "" }
    setBranch := fun _ b => "branch=" ++ b
    Do := fun k _ =>
      if k = 0 then .ok { StatusCode := listStatus, Body := { data := listBody, err := none } }
      else .ok { StatusCode := codes (k - 1), Body := { data := "no", err := none } }
    Unmarshal := decode }

/-- The world of the scenario of section 8: the listing decodes to `scenarioRuns` and every
cancellation is accepted. -/
def scenarioWorld : World :=
  worldOf 200 "runs" (fun _ => .ok { WorkflowRuns := scenarioRuns }) (fun _ => 202)

/-- The run of the second scenario of section 8: far ahead of any current run number. -/
def futureRun : WorkflowRun :=
  { Id := 4, Status := "in_progress", HeadSha := "other", HeadBranch := "main",
    RunNumber := 999 }

/-- A world whose listing decodes to `futureRun` alone. -/
def futureWorld : World :=
  worldOf 200 "runs" (fun _ => .ok { WorkflowRuns := [futureRun] }) (fun _ => 202)

/-- The identity of the second scenario of section 8: the current run number is unknown. -/
def unknownNumberGlobals : Globals := { scenarioGlobals with currentRunNumber := 0 }

/-- Two eligible runs, for the isolation of failures. -/
def twoRuns : List WorkflowRun :=
  [ { Id := 10, Status := "queued", HeadSha := "a", HeadBranch := "main", RunNumber := 1 },
    { Id := 11, Status := "queued", HeadSha := "b", HeadBranch := "main", RunNumber := 2 } ]

/-- A world whose listing decodes to `twoRuns`; the cancellation launched first is refused
with status 500, the other one is accepted. -/
def firstFailsWorld : World :=
  worldOf 200 "runs" (fun _ => .ok { WorkflowRuns := twoRuns })
    (fun k => if k = 0 then 500 else 202)

/-- A world in which no URL parses. -/
def badURLWorld : World :=
  { scenarioWorld with urlParse := fun _ => .error "parse error" }

/-- A world in which the listing call fails in transport. -/
def noTransportWorld : World :=
  { scenarioWorld with Do := fun _ _ => .error "connection refused" }

/-- A world in which reading the body of the listing fails. -/
def badReadWorld : World :=
  { scenarioWorld with
    Do := fun _ _ => .ok { StatusCode := 200, Body := { data := "ru", err := some "EOF" } } }

/-- A world in which the body of the listing does not decode. -/
def badJSONWorld : World :=
  { scenarioWorld with Unmarshal := fun _ => .error "invalid character" }

/-- Answers to the goroutines: the one launched first is refused with status 500, the others
are accepted. -/
def refuseFirst : Nat → Request → Except GoError Response :=
  fun k _ =>
    .ok { StatusCode := if k = 0 then 500 else 202, Body := { data := "no", err := none } }

/-- Answers to the goroutines: every cancellation is accepted. -/
def acceptAll : Nat → Request → Except GoError Response :=
  fun _ _ => .ok { StatusCode := 202, Body := { data := "no", err := none } }

/-- A world in which the provider answers the listing call with 404 and the body GitHub sends
with it; `json.Unmarshal` decodes that object into a `WorkflowRunsResponse` without error,
there being no `workflow_runs` key the list stays empty. -/
def notFoundWorld : World :=
  worldOf 404 "\x7b\"message\":\"Not Found\"\x7d" (fun _ => .ok { WorkflowRuns := [] })
    (fun _ => 202)

/-- A world in which the provider answers the listing call with 500 and a body that is a
well-formed listing of `scenarioRuns`. -/
def serverErrorWorld : World :=
  worldOf 500 "runs" (fun _ => .ok { WorkflowRuns := scenarioRuns }) (fun _ => 202)

/-- The world `w` with the status code of every answer to the listing call rewritten by `f`. -/
def World.withListingStatus (w : World) (f : Int → Int) : World :=
  { w with Do := fun k request =>
      if k = 0 then
        match w.Do 0 request with
        | .error e => .error e
        | .ok response => .ok { response with StatusCode := f response.StatusCode }
      else w.Do k request }

/-- A schedule for `twoRuns`: the first goroutine calls `cancelWorkflow` while `main` is
still looping, the second one finishes first, and `main` waits for both. -/
def barrierSchedule : List Action :=
  [.main, .main, .task 0, .main, .main, .main, .task 1, .task 1, .task 0, .main]

/-- The state `barrierSchedule` ends in. -/
def barrierEnd : ConcState :=
  { pc := .exited, wg := 0, panicked := false, adds := 2, dones := 2
    tasks :=
      [ { run := twoRuns[0], id := 10,
          pc := .finished (some "failed to cancel workflow #10, status code: 500, body: no") },
        { run := twoRuns[1], id := 11, pc := .finished none } ]
    log := [listingLine scenarioGlobals, cancelingLine scenarioGlobals 10,
      cancelingLine scenarioGlobals 11] }

/-- The schedule `barrierSchedule` cut before the first goroutine runs its `wg.Done()`. -/
def blockedSchedule : List Action :=
  [.main, .main, .task 0, .main, .main, .main, .task 1, .task 1]

/-! # Properties -/

theorem skips_eq_false_iff (g : Globals) (run : WorkflowRun) :
    skips g run = false ↔ Eligible g run := by
  unfold skips Eligible
  by_cases h1 : run.Status = "completed"
  · simp [h1]
  by_cases h2 : run.HeadBranch = g.branchName
  swap
  · simp [h1, h2]
  by_cases h3 : run.HeadSha = g.currentSha
  · simp [h1, h2, h3]
  by_cases h4 : g.currentRunNumber = 0
  · simp [h1, h2, h3, h4]
  simp [h1, h2, h3, h4]

/-- The reports the loop appends: one per eligible run still to visit, numbered on from the
goroutines already launched. -/
theorem mainLoop_tasks (w : World) (g : Globals) (runs : List WorkflowRun) (acc : Outcome) :
    (mainLoop w g runs acc).tasks
      = acc.tasks ++
        ((runs.filter (fun run => decide (Eligible g run))).enumFrom acc.tasks.length).map
          (fun kr => { run := kr.2, id := kr.2.Id,
                       logged := cancelWorkflow w g (kr.1 + 1) kr.2.Id }) := by
  induction runs generalizing acc with
  | nil => simp [mainLoop]
  | cons run rest ih =>
    unfold mainLoop
    by_cases h : skips g run = true
    · have hne : ¬ Eligible g run := by
        intro he
        have := (skips_eq_false_iff g run).2 he
        simp [this] at h
      simp [h, ih, List.filter_cons, hne]
    · have he : Eligible g run := (skips_eq_false_iff g run).1 (by simpa using h)
      simp [h, ih, List.filter_cons, he, List.enumFrom_cons]

theorem main_tasks (w : World) (g : Globals) (runs : List WorkflowRun)
    (h : listRuns w g = .ok runs) :
    (main w g).tasks
      = ((runs.filter (fun run => decide (Eligible g run))).enum).map
          (fun kr => { run := kr.2, id := kr.2.Id,
                       logged := cancelWorkflow w g (kr.1 + 1) kr.2.Id }) := by
  simp [main, h, mainLoop_tasks, List.enum]

theorem main_selectedRuns (w : World) (g : Globals) (runs : List WorkflowRun)
    (h : listRuns w g = .ok runs) :
    (main w g).selectedRuns = runs.filter (fun run => decide (Eligible g run)) := by
  rw [Outcome.selectedRuns, main_tasks w g runs h, List.map_map]
  have : (TaskReport.run ∘ fun (kr : Nat × WorkflowRun) =>
      ({ run := kr.2, id := kr.2.Id,
         logged := cancelWorkflow w g (kr.1 + 1) kr.2.Id } : TaskReport)) = Prod.snd := rfl
  rw [this]
  exact List.enum_map_snd _

theorem main_cancelCalls (w : World) (g : Globals) (runs : List WorkflowRun)
    (h : listRuns w g = .ok runs) :
    (main w g).cancelCalls
      = (runs.filter (fun run => decide (Eligible g run))).map WorkflowRun.Id := by
  rw [Outcome.cancelCalls, main_tasks w g runs h, List.map_map]
  have : (TaskReport.id ∘ fun (kr : Nat × WorkflowRun) =>
      ({ run := kr.2, id := kr.2.Id,
         logged := cancelWorkflow w g (kr.1 + 1) kr.2.Id } : TaskReport))
      = WorkflowRun.Id ∘ Prod.snd := rfl
  rw [this, ← List.map_map, List.enum_map_snd]

theorem main_of_listRuns_error (w : World) (g : Globals) (e : GoError)
    (h : listRuns w g = .error e) :
    main w g = { log := [listingLine g, e], tasks := [] } := by
  simp [main, h]

theorem main_selectedRuns_mem (w : World) (g : Globals) (run : WorkflowRun)
    (h : run ∈ (main w g).selectedRuns) : Eligible g run := by
  cases hl : listRuns w g with
  | error e =>
    rw [Outcome.selectedRuns, main_of_listRuns_error w g e hl] at h
    simp at h
  | ok runs =>
    rw [main_selectedRuns w g runs hl] at h
    simpa using (List.mem_filter.1 h).2

theorem listRuns_answering (w : World) (g : Globals)
    (outcomes : Nat → Request → Except GoError Response) :
    listRuns (w.answering outcomes) g = listRuns w g := by
  simp [listRuns, NewRequest, githubRequest, World.answering, listRequest]

/-- C1: a run of the listing is selected for cancellation exactly when it is eligible.
Whenever the listing call yields `runs`, the runs whose iteration launches a cancellation are
the runs of the list meeting all four conditions (status not "completed", same branch,
different sha, and current run number 0 or run number at most the current one), in list
order, and the ids handed to `cancelWorkflow` are their ids. -/
theorem selected_iff_eligible (w : World) (g : Globals) (runs : List WorkflowRun)
    (h : listRuns w g = .ok runs) :
    (main w g).selectedRuns = runs.filter (fun run => decide (Eligible g run)) ∧
    (main w g).cancelCalls
      = (runs.filter (fun run => decide (Eligible g run))).map WorkflowRun.Id ∧
    ∀ run, run ∈ (main w g).selectedRuns ↔
      run ∈ runs ∧ run.Status ≠ "completed" ∧ run.HeadBranch = g.branchName ∧
        run.HeadSha ≠ g.currentSha ∧
        (g.currentRunNumber = 0 ∨ run.RunNumber ≤ g.currentRunNumber) := by
  refine ⟨main_selectedRuns w g runs h, main_cancelCalls w g runs h, fun run => ?_⟩
  rw [main_selectedRuns w g runs h, List.mem_filter]
  simp [Eligible]

/-- In the scenario of section 8 exactly the run with id 2 is selected. -/
theorem selected_iff_eligible_scenario :
    listRuns scenarioWorld scenarioGlobals = .ok scenarioRuns ∧
    (main scenarioWorld scenarioGlobals).cancelCalls = [2] :=
  ⟨rfl, (selected_iff_eligible scenarioWorld scenarioGlobals scenarioRuns rfl).2.1.trans
    (by decide)⟩

/-- C2: no selected run is completed, none builds the current commit, none is on another
branch. Every run whose iteration launches a cancellation has a status other than
"completed", a head sha other than the current sha and the current branch as head branch. -/
theorem selected_not_completed_not_self_same_branch (w : World) (g : Globals)
    (run : WorkflowRun) (h : run ∈ (main w g).selectedRuns) :
    run.Status ≠ "completed" ∧ run.HeadSha ≠ g.currentSha ∧
      run.HeadBranch = g.branchName := by
  have he := main_selectedRuns_mem w g run h
  exact ⟨he.1, he.2.2.1, he.2.1⟩

/-- The selected run of the scenario of section 8 is in progress, on `main`, at another sha. -/
theorem selected_not_completed_not_self_same_branch_scenario :
    scenarioRuns[1] ∈ (main scenarioWorld scenarioGlobals).selectedRuns ∧
    scenarioRuns[1].Status ≠ "completed" ∧
    scenarioRuns[1].HeadSha ≠ scenarioGlobals.currentSha ∧
    scenarioRuns[1].HeadBranch = scenarioGlobals.branchName :=
  ⟨by decide, selected_not_completed_not_self_same_branch scenarioWorld scenarioGlobals
    scenarioRuns[1] (by decide)⟩

/-- C3: future-run protection. With a non-zero current run number no run with a greater run
number is selected; with current run number 0 the run number plays no part: whenever the
listing call yields `runs`, the selected runs are all the runs that are not completed, are on
the current branch and build another sha, whatever their run number. -/
theorem future_run_protection (w : World) (g : Globals) :
    (g.currentRunNumber ≠ 0 →
      ∀ run, g.currentRunNumber < run.RunNumber → run ∉ (main w g).selectedRuns) ∧
    (g.currentRunNumber = 0 →
      ∀ runs, listRuns w g = .ok runs →
        (main w g).selectedRuns = runs.filter (fun run => decide
          (run.Status ≠ "completed" ∧ run.HeadBranch = g.branchName ∧
            run.HeadSha ≠ g.currentSha))) := by
  constructor
  · intro hn run hlt hmem
    have he := main_selectedRuns_mem w g run hmem
    rcases he.2.2.2 with h0 | hle
    · exact hn h0
    · omega
  · intro h0 runs h
    rw [main_selectedRuns w g runs h]
    congr 1
    funext run
    simp [Eligible, h0]

/-- The run numbered 999 is left alone under current run number 6 and selected under current
run number 0. -/
theorem future_run_protection_scenario :
    (listRuns futureWorld scenarioGlobals = .ok [futureRun] ∧
      futureRun ∉ (main futureWorld scenarioGlobals).selectedRuns) ∧
    (listRuns futureWorld unknownNumberGlobals = .ok [futureRun] ∧
      (main futureWorld unknownNumberGlobals).selectedRuns = [futureRun]) :=
  ⟨⟨rfl, (future_run_protection futureWorld scenarioGlobals).1 (by decide)
      futureRun (by decide)⟩,
   ⟨rfl, ((future_run_protection futureWorld unknownNumberGlobals).2 rfl [futureRun]
      rfl).trans (by decide)⟩⟩

/-- C5: `cancelWorkflow` succeeds exactly on status 202. Once the request is built: if the
exchange yields a response, `cancelWorkflow id` returns no error if and only if the status
code is 202, and for any other status code it returns the error whose message is
`failed to cancel workflow #<id>, status code: <code>, body: <body>`, which contains the
decimal run id, the decimal status code and the bytes read from the response body; if the
exchange fails, its error is returned. -/
theorem cancelWorkflow_accepted_iff (w : World) (g : Globals) (k : Nat) (id : Int)
    (request : Request) (hreq : NewRequest w "POST" (cancelURL g id) = .ok request) :
    (∀ response, w.Do k (withHeaders g request) = .ok response →
      (cancelWorkflow w g k id = none ↔ response.StatusCode = 202) ∧
      (response.StatusCode ≠ 202 →
        ∃ msg, cancelWorkflow w g k id = some msg ∧
          msg = "failed to cancel workflow #" ++ fmtD id ++ ", status code: "
            ++ fmtD response.StatusCode ++ ", body: " ++ response.Body.data ∧
          (fmtD id).data <:+: msg.data ∧
          (fmtD response.StatusCode).data <:+: msg.data ∧
          response.Body.data.data <:+: msg.data)) ∧
    (∀ err, w.Do k (withHeaders g request) = .error err →
      cancelWorkflow w g k id = some err) := by
  constructor
  · intro response hdo
    have hcw : cancelWorkflow w g k id
        = if response.StatusCode ≠ StatusAccepted then
            some (cancelFailure id response.StatusCode response.Body.data) else none := by
      simp [cancelWorkflow, hreq, githubRequest, hdo]
    constructor
    · rw [hcw]
      by_cases hs : response.StatusCode = 202
      · simp [hs, StatusAccepted]
      · simp [hs, StatusAccepted]
    · intro hs
      refine ⟨cancelFailure id response.StatusCode response.Body.data, ?_, rfl, ?_, ?_, ?_⟩
      · rw [hcw]; simp [hs, StatusAccepted]
      · exact ⟨"failed to cancel workflow #".data,
          (", status code: " ++ fmtD response.StatusCode ++ ", body: "
            ++ response.Body.data).data, by simp [cancelFailure, String.data_append]⟩
      · exact ⟨("failed to cancel workflow #" ++ fmtD id ++ ", status code: ").data,
          (", body: " ++ response.Body.data).data, by simp [cancelFailure, String.data_append]⟩
      · exact ⟨("failed to cancel workflow #" ++ fmtD id ++ ", status code: "
            ++ fmtD response.StatusCode ++ ", body: ").data, [],
          by simp [cancelFailure, String.data_append]⟩
  · intro err hdo
    simp [cancelWorkflow, hreq, githubRequest, hdo]

/-- C6: a failed listing call cancels nothing and `main` returns. If the listing call fails
with error `e` (request construction, transport, reading the body, or decoding), `main`
returns having logged the listing line and `e`, and no goroutine was launched, so no
cancellation call was made. -/
theorem listing_failure_cancels_nothing (w : World) (g : Globals) (e : GoError)
    (h : ListingFails w g e) :
    main w g = { log := [listingLine g, e], tasks := [] } ∧ (main w g).cancelCalls = [] := by
  have hl : listRuns w g = .error e := by
    rcases h with h | ⟨request, hreq, h | ⟨response, hdo, h | ⟨hb, hu⟩⟩⟩
    · simp [listRuns, NewRequest, h]
    · simp [listRuns, hreq, githubRequest, h]
    · simp [listRuns, hreq, githubRequest, hdo, h]
    · simp [listRuns, hreq, githubRequest, hdo, hb, hu]
  rw [main_of_listRuns_error w g e hl]
  exact ⟨rfl, rfl⟩

/-- Accepted, refused, and failed in transport: the three outcomes of `cancelWorkflow`. -/
theorem cancelWorkflow_accepted_iff_scenario :
    cancelWorkflow firstFailsWorld scenarioGlobals 2 11 = none ∧
    cancelWorkflow firstFailsWorld scenarioGlobals 1 10 ≠ none ∧
    cancelWorkflow noTransportWorld scenarioGlobals 1 10 = some "connection refused" :=
  ⟨((cancelWorkflow_accepted_iff firstFailsWorld scenarioGlobals 2 11
      { Method := "POST", URL := { Location := cancelURL scenarioGlobals 11, RawQuery := "" },
        Header := [] } rfl).1
      { StatusCode := 202, Body := { data := "no", err := none } } rfl).1.2 rfl,
   fun h => absurd (((cancelWorkflow_accepted_iff firstFailsWorld scenarioGlobals 1 10
      { Method := "POST", URL := { Location := cancelURL scenarioGlobals 10, RawQuery := "" },
        Header := [] } rfl).1
      { StatusCode := 500, Body := { data := "no", err := none } } rfl).1.1 h) (by decide),
   (cancelWorkflow_accepted_iff noTransportWorld scenarioGlobals 1 10
      { Method := "POST", URL := { Location := cancelURL scenarioGlobals 10, RawQuery := "" },
        Header := [] } rfl).2 "connection refused" rfl⟩

/-- Each of the four failures of the listing call ends `main` with the error logged and
nothing launched. -/
theorem listing_failure_cancels_nothing_scenario :
    main badURLWorld scenarioGlobals
      = { log := [listingLine scenarioGlobals, "parse error"], tasks := [] } ∧
    main noTransportWorld scenarioGlobals
      = { log := [listingLine scenarioGlobals, "connection refused"], tasks := [] } ∧
    main badReadWorld scenarioGlobals
      = { log := [listingLine scenarioGlobals, "EOF"], tasks := [] } ∧
    main badJSONWorld scenarioGlobals
      = { log := [listingLine scenarioGlobals, "invalid character"], tasks := [] } :=
  ⟨(listing_failure_cancels_nothing badURLWorld scenarioGlobals "parse error"
      (Or.inl rfl)).1,
   (listing_failure_cancels_nothing noTransportWorld scenarioGlobals "connection refused"
      (Or.inr ⟨_, rfl, Or.inl rfl⟩)).1,
   (listing_failure_cancels_nothing badReadWorld scenarioGlobals "EOF"
      (Or.inr ⟨_, rfl, Or.inr ⟨_, rfl, Or.inl rfl⟩⟩)).1,
   (listing_failure_cancels_nothing badJSONWorld scenarioGlobals "invalid character"
      (Or.inr ⟨_, rfl, Or.inr ⟨_, rfl, Or.inr ⟨rfl, rfl⟩⟩⟩)).1⟩

theorem cancelWorkflow_withListingStatus (w : World) (f : Int → Int) (g : Globals) (k : Nat)
    (id : Int) :
    cancelWorkflow (w.withListingStatus f) g (k + 1) id = cancelWorkflow w g (k + 1) id := by
  simp [cancelWorkflow, NewRequest, githubRequest, World.withListingStatus]

theorem mainLoop_withListingStatus (w : World) (f : Int → Int) (g : Globals)
    (runs : List WorkflowRun) (acc : Outcome) :
    mainLoop (w.withListingStatus f) g runs acc = mainLoop w g runs acc := by
  induction runs generalizing acc with
  | nil => rfl
  | cons run rest ih =>
    unfold mainLoop
    simp only [ih, cancelWorkflow_withListingStatus]

theorem listRuns_withListingStatus (w : World) (f : Int → Int) (g : Globals) :
    listRuns (w.withListingStatus f) g = listRuns w g := by
  unfold listRuns
  cases hreq : NewRequest w "GET" (listURL g) with
  | error e =>
    have : NewRequest (w.withListingStatus f) "GET" (listURL g) = .error e := by
      simpa [NewRequest, World.withListingStatus] using hreq
    simp [this]
  | ok request =>
    have : NewRequest (w.withListingStatus f) "GET" (listURL g) = .ok request := by
      simpa [NewRequest, World.withListingStatus] using hreq
    have hlr : listRequest (w.withListingStatus f) g request = listRequest w g request := rfl
    have hU : (w.withListingStatus f).Unmarshal = w.Unmarshal := rfl
    have hD : (w.withListingStatus f).Do 0 (withHeaders g (listRequest w g request))
        = match w.Do 0 (withHeaders g (listRequest w g request)) with
          | .error e => .error e
          | .ok response => .ok { response with StatusCode := f response.StatusCode } := rfl
    simp only [this, githubRequest, hlr, hU, hD]
    cases hdo : w.Do 0 (withHeaders g (listRequest w g request)) with
    | error e => rfl
    | ok response => rfl

/-- C7, as the code behaves: the status code of the answer to the listing call is never
inspected. `main` does the same whatever status codes the listing is answered with; a 404
whose body is a JSON object is decoded to an empty listing and nothing but the listing line
is logged; a 500 whose body lists runs has the eligible run cancelled. -/
theorem listing_status_ignored :
    (∀ (w : World) (f : Int → Int) (g : Globals), main (w.withListingStatus f) g = main w g) ∧
    main notFoundWorld scenarioGlobals
      = { log := [listingLine scenarioGlobals], tasks := [] } ∧
    (main serverErrorWorld scenarioGlobals).cancelCalls = [2] := by
  refine ⟨fun w f g => ?_, by decide, by decide⟩
  unfold main
  rw [listRuns_withListingStatus]
  cases listRuns w g with
  | error e => rfl
  | ok runs => simp only [mainLoop_withListingStatus]

/-! ## `strings.Replace` and the branch name -/

theorem Index_of_prefix (s old : List Char) (h : old <+: s) : Index s old = some 0 := by
  cases s with
  | nil =>
    have : old = [] := List.prefix_nil.1 h
    simp [Index, this]
  | cons c s =>
    have : old.isPrefixOf (c :: s) = true := List.isPrefixOf_iff_prefix.2 h
    simp [Index, this]

theorem Index_eq_none (s old : List Char) (h : ¬ old <:+: s) : Index s old = none := by
  induction s with
  | nil =>
    have : old ≠ [] := by
      intro h0; apply h; rw [h0]
    simp [Index, this]
  | cons c s ih =>
    have h1 : old.isPrefixOf (c :: s) = false := by
      cases hp : old.isPrefixOf (c :: s) with
      | false => rfl
      | true => exact absurd (List.isPrefixOf_iff_prefix.1 hp).isInfix h
    have h2 : ¬ old <:+: s := fun hi => h (hi.trans (List.suffix_cons c s).isInfix)
    simp only [Index, h1, ih h2]
    rfl

theorem Index_first (pre old post : List Char) (hold : old ≠ [])
    (h : ¬ old <:+: pre ++ old.dropLast) :
    Index (pre ++ (old ++ post)) old = some pre.length := by
  induction pre with
  | nil => exact Index_of_prefix _ _ ⟨post, by simp⟩
  | cons c p ih =>
    have h1 : old.isPrefixOf (c :: (p ++ (old ++ post))) = false := by
      cases hp : old.isPrefixOf (c :: (p ++ (old ++ post))) with
      | false => rfl
      | true =>
        exfalso
        apply h
        have hpre : old <+: (c :: p) ++ (old ++ post) := List.isPrefixOf_iff_prefix.1 hp
        have hpre2 : (c :: p) ++ old.dropLast <+: (c :: p) ++ (old ++ post) :=
          (List.prefix_append_right_inj _).2
            ((List.dropLast_prefix old).trans (List.prefix_append old post))
        have hlen : old.length ≤ ((c :: p) ++ old.dropLast).length := by
          have : 0 < old.length := List.length_pos.2 hold
          simp only [List.length_append, List.length_cons, List.length_dropLast]
          omega
        exact (List.prefix_of_prefix_length_le hpre hpre2 hlen).isInfix
    have h2 : ¬ old <:+: p ++ old.dropLast := fun hi =>
      h (hi.trans (List.suffix_cons c _).isInfix)
    have hstep : Index (c :: (p ++ (old ++ post))) old
        = (Index (p ++ (old ++ post)) old).map (· + 1) := by
      rw [Index, h1]; rfl
    rw [List.cons_append, hstep, ih h2]
    rfl

theorem replaceChars_first (pre old new post : List Char) (hold : old ≠ [])
    (hne : old ≠ new) (h : ¬ old <:+: pre ++ old.dropLast) :
    replaceChars (pre ++ (old ++ post)) old new 1 = pre ++ (new ++ post) := by
  have hi := Index_first pre old post hold h
  have hlen : old.length ≠ 0 := fun h0 => hold (List.length_eq_zero.1 h0)
  have hc : Count (pre ++ (old ++ post)) old ≠ 0 := by
    simp only [Count, hold, if_false, countLoop, hi]
    omega
  have hn : (if (1 : Int) < 0 ∨ ((Count (pre ++ (old ++ post)) old : Nat) : Int) < 1
      then Count (pre ++ (old ++ post)) old else (1 : Int).toNat) = 1 := by
    have : ¬ ((1 : Int) < 0 ∨ ((Count (pre ++ (old ++ post)) old : Nat) : Int) < 1) := by
      omega
    rw [if_neg this]
    rfl
  unfold replaceChars
  simp only [hne, false_or, one_ne_zero, if_false, hc, hn]
  simp only [replaceLoop, hlen, if_false, hi, Option.getD_some]
  simp

theorem replaceChars_absent (s old new : List Char) (n : Int) (h : ¬ old <:+: s) :
    replaceChars s old new n = s := by
  have hold : old ≠ [] := by
    intro h0; apply h; rw [h0]; exact List.nil_infix
  have hc : Count s old = 0 := by
    simp [Count, hold, countLoop, Index_eq_none s old h]
  simp [replaceChars, hc]

theorem Index_le (s old : List Char) (i : Nat) (h : Index s old = some i) :
    i + old.length ≤ s.length := by
  induction s generalizing i with
  | nil =>
    by_cases ho : old = []
    · simp [Index, ho] at h; simp [ho, ← h]
    · simp [Index, ho] at h
  | cons c s ih =>
    by_cases hp : old.isPrefixOf (c :: s) = true
    · simp only [Index, hp, if_true, Option.some.injEq] at h
      have := (List.isPrefixOf_iff_prefix.1 hp).length_le
      omega
    · simp only [Index, hp, if_false, Bool.false_eq_true] at h
      cases hi : Index s old with
      | none => simp [hi] at h
      | some j =>
        simp only [hi, Option.map_some', Option.some.injEq] at h
        have := ih j hi
        simp only [List.length_cons]
        omega

/-- The fuel of `countLoop` is enough: any larger amount gives the same count. -/
theorem countLoop_fuel (old : List Char) (hold : old ≠ []) (fuel fuel' : Nat) (s : List Char)
    (h : s.length < fuel) (h' : s.length < fuel') :
    countLoop old fuel s = countLoop old fuel' s := by
  induction fuel generalizing fuel' s with
  | zero => omega
  | succ n ih =>
    cases fuel' with
    | zero => omega
    | succ n' =>
      simp only [countLoop]
      cases hi : Index s old with
      | none => rfl
      | some i =>
        have hle := Index_le s old i hi
        have hpos : 0 < old.length := List.length_pos.2 hold
        have hdrop : (s.drop (i + old.length)).length < s.length := by
          simp only [List.length_drop]; omega
        simp only [ih n' (s.drop (i + old.length)) (by omega) (by omega)]

/-- C9, as the code behaves: `branchName` is the reference with the first occurrence of
"refs/heads/" removed, wherever it stands. For a reference "refs/heads/" ++ b the branch is
`b`; a reference that does not contain "refs/heads/" is used unchanged; and when the first
occurrence follows a non-empty `pre`, it is removed there. -/
theorem branchNameOf_removes_first_occurrence :
    (∀ b : String, branchNameOf ("refs/heads/" ++ b) = b) ∧
    (∀ ref : String, ¬ "refs/heads/".data <:+: ref.data → branchNameOf ref = ref) ∧
    (∀ pre post : String, ¬ "refs/heads/".data <:+: (pre ++ "refs/heads").data →
      branchNameOf (pre ++ "refs/heads/" ++ post) = pre ++ post) := by
  have hold : "refs/heads/".data ≠ [] := by decide
  have hne : "refs/heads/".data ≠ "".data := by decide
  have hlast : "refs/heads/".data.dropLast = "refs/heads".data := by decide
  have key : ∀ pre post : String, ¬ "refs/heads/".data <:+: (pre ++ "refs/heads").data →
      branchNameOf (pre ++ "refs/heads/" ++ post) = pre ++ post := by
    intro pre post h
    have h' : ¬ "refs/heads/".data <:+: pre.data ++ "refs/heads/".data.dropLast := by
      rw [hlast]; simpa [String.data_append] using h
    have := replaceChars_first pre.data "refs/heads/".data "".data post.data hold hne h'
    apply String.ext
    simp only [branchNameOf, Replace, String.data_append, List.append_assoc]
    rw [this]
    rfl
  refine ⟨fun b => ?_, fun ref h => ?_, key⟩
  · have := key "" b (by decide)
    simpa using this
  · apply String.ext
    simp only [branchNameOf, Replace]
    exact replaceChars_absent ref.data _ _ 1 h

/-- A reference under "refs/heads/", a pull-request reference, and a tag whose name contains
"refs/heads/". -/
theorem branchNameOf_removes_first_occurrence_examples :
    branchNameOf ("refs/heads/" ++ "main") = "main" ∧
    branchNameOf "refs/pull/7/merge" = "refs/pull/7/merge" ∧
    branchNameOf ("refs/tags/" ++ "refs/heads/" ++ "v1") = "refs/tags/" ++ "v1" :=
  ⟨branchNameOf_removes_first_occurrence.1 "main",
   branchNameOf_removes_first_occurrence.2.1 "refs/pull/7/merge" (by decide),
   branchNameOf_removes_first_occurrence.2.2 "refs/tags/" "v1" (by decide)⟩

/-- C9 as stated fails: a reference that does not begin with "refs/heads/" is changed when
it contains "refs/heads/" further on. -/
theorem branchNameOf_not_prefix_only :
    ¬ ∀ ref : String, ¬ "refs/heads/".data <+: ref.data → branchNameOf ref = ref := by
  intro h
  have := h "refs/tags/refs/heads/v1" (by decide)
  revert this
  decide

/-! ## `strconv.Atoi` and the current run number -/

theorem le_decimalFrom (n : Nat) (ds : List Nat) : n ≤ decimalFrom n ds := by
  induction ds generalizing n with
  | nil => exact Nat.le_refl n
  | cons b ds ih =>
    have := ih (n * 10 + (b - 48))
    simp only [decimalFrom, List.foldl_cons] at this ⊢
    omega

theorem decimalFrom_cons (n b : Nat) (ds : List Nat) :
    decimalFrom n (b :: ds) = decimalFrom (n * 10 + (b - 48)) ds := rfl

theorem parseUintLoop_eq (maxVal : Nat) (hmax : maxVal ≤ maxUint64) (s : List Nat) (n : Nat)
    (hn : n ≤ maxVal) :
    parseUintLoop maxVal s n =
      if maxVal < decimalFrom n (s.takeWhile isDigit) then (maxVal, some .ErrRange)
      else if s.dropWhile isDigit ≠ [] then (0, some .ErrSyntax)
      else (decimalFrom n (s.takeWhile isDigit), none) := by
  induction s generalizing n with
  | nil =>
    have : ¬ maxVal < n := by omega
    simp [parseUintLoop, decimalFrom, this]
  | cons c rest ih =>
    unfold maxUint64 at hmax
    by_cases hd : 48 ≤ c ∧ c ≤ 57
    · have hdig : isDigit c = true := by simp [isDigit, hd]
      have hd10 : ¬ c - 48 ≥ 10 := by omega
      simp only [parseUintLoop, hd, and_self, if_true, hd10, if_false, List.takeWhile_cons,
        hdig, List.dropWhile_cons, decimalFrom_cons]
      have hmono := le_decimalFrom (n * 10 + (c - 48)) (rest.takeWhile isDigit)
      by_cases hcut : n ≥ maxUint64 / 10 + 1
      · have : maxVal < decimalFrom (n * 10 + (c - 48)) (rest.takeWhile isDigit) := by
          unfold maxUint64 at hcut; omega
        simp [hcut, this]
      · simp only [hcut, if_false]
        have hn10 : uint64 (n * 10) = n * 10 := by
          unfold maxUint64 at hcut; unfold uint64; omega
        rw [hn10]
        by_cases hwrap : n * 10 + (c - 48) < 2 ^ 64
        · have hn1 : uint64 (n * 10 + (c - 48)) = n * 10 + (c - 48) := by
            unfold uint64; omega
          rw [hn1]
          by_cases hover : n * 10 + (c - 48) > maxVal
          · have : maxVal < decimalFrom (n * 10 + (c - 48)) (rest.takeWhile isDigit) := by
              omega
            simp [hover, this]
          · have h1 : ¬ (n * 10 + (c - 48) < n * 10 ∨ n * 10 + (c - 48) > maxVal) := by omega
            rw [if_neg h1]
            exact ih (n * 10 + (c - 48)) (by omega)
        · have hlt : uint64 (n * 10 + (c - 48)) < n * 10 := by
            unfold maxUint64 at hcut; unfold uint64; omega
          have : maxVal < decimalFrom (n * 10 + (c - 48)) (rest.takeWhile isDigit) := by
            omega
          simp [hlt, this]
    · have hdig : isDigit c = false := by simp [isDigit, hd]
      have hnot : ¬ maxVal < n := by omega
      simp only [parseUintLoop, hd, if_false, List.takeWhile_cons, hdig, List.dropWhile_cons,
        decimalFrom, List.foldl_nil, hnot]
      by_cases hl : 97 ≤ lower c ∧ lower c ≤ 122
      · have : lower c - 97 + 10 ≥ 10 := by omega
        simp [hl, this, hnot]
      · simp [hl, hnot]

theorem dropWhile_eq_nil_iff_all (s : List Nat) :
    s.dropWhile isDigit = [] ↔ s.all isDigit = true := by
  induction s with
  | nil => simp
  | cons c rest ih =>
    by_cases hc : isDigit c = true
    · simp [List.dropWhile_cons, hc, ih]
    · simp [List.dropWhile_cons, hc]

theorem ParseUint_eq (intSize : Nat) (hbits : intSize = 32 ∨ intSize = 64) (s : List Nat) :
    ParseUint intSize s =
      if s = [] then (0, some .ErrSyntax)
      else if 2 ^ intSize ≤ decimal (s.takeWhile isDigit) then
        (2 ^ intSize - 1, some .ErrRange)
      else if s.all isDigit = false then (0, some .ErrSyntax)
      else (decimal (s.takeWhile isDigit), none) := by
  unfold ParseUint
  by_cases hs : s = []
  · simp [hs]
  · simp only [hs, if_false]
    have hmax : uint64 (uint64 (2 ^ intSize) + maxUint64) = 2 ^ intSize - 1 := by
      rcases hbits with rfl | rfl <;> decide
    have hle : 2 ^ intSize - 1 ≤ maxUint64 := by
      rcases hbits with rfl | rfl <;> decide
    have hpos : 0 < 2 ^ intSize := Nat.pow_pos (by decide)
    rw [hmax, parseUintLoop_eq _ hle s 0 (Nat.zero_le _)]
    have hdrop : (s.dropWhile isDigit ≠ []) ↔ s.all isDigit = false := by
      rw [Ne, dropWhile_eq_nil_iff_all]; simp
    by_cases hov : 2 ^ intSize ≤ decimal (s.takeWhile isDigit)
    · have : 2 ^ intSize - 1 < decimalFrom 0 (s.takeWhile isDigit) := by
        unfold decimal at hov; omega
      simp [hov, this]
    · have : ¬ 2 ^ intSize - 1 < decimalFrom 0 (s.takeWhile isDigit) := by
        unfold decimal at hov; omega
      simp only [hov, this, if_false]
      by_cases hall : s.all isDigit = false
      · simp [hall, hdrop.2 hall]
      · have : ¬ (s.dropWhile isDigit ≠ []) := fun h => hall (hdrop.1 h)
        simp only [this, hall, if_false]
        rfl

theorem wrapInt_eq (intSize : Nat) (hbits : intSize = 32 ∨ intSize = 64) (x : Int)
    (h1 : -2 ^ (intSize - 1) ≤ x) (h2 : x < 2 ^ (intSize - 1)) : wrapInt intSize x = x := by
  rcases hbits with rfl | rfl
  · norm_num [wrapInt] at h1 h2 ⊢; omega
  · norm_num [wrapInt] at h1 h2 ⊢; omega

theorem parseIntRange_fst (intSize : Nat) (hbits : intSize = 32 ∨ intSize = 64) (neg : Bool)
    (un : Nat) (hun : un < 2 ^ intSize) :
    wrapInt intSize (parseIntRange intSize neg un).1 =
      if neg = false ∧ 2 ^ (intSize - 1) ≤ un then 2 ^ (intSize - 1) - 1
      else if neg = true ∧ 2 ^ (intSize - 1) < un then -2 ^ (intSize - 1)
      else if neg = true then -(un : Int) else (un : Int) := by
  rcases hbits with rfl | rfl
  · norm_num [parseIntRange, uint64] at hun ⊢
    cases neg
    · by_cases h : 2147483648 ≤ un
      · simp [h, wrapInt]
      · simp only [h, and_false, if_false, Bool.false_eq_true, false_and, wrapInt]
        norm_num
        omega
    · by_cases h : 2147483648 < un
      · simp [h, wrapInt]
      · simp only [h, and_false, if_false, Bool.true_eq_false, false_and, wrapInt, if_true]
        norm_num
        omega
  · norm_num [parseIntRange, uint64] at hun ⊢
    cases neg
    · by_cases h : 9223372036854775808 ≤ un
      · simp [h, wrapInt]
      · simp only [h, and_false, if_false, Bool.false_eq_true, false_and, wrapInt]
        norm_num
        omega
    · by_cases h : 9223372036854775808 < un
      · simp [h, wrapInt]
      · simp only [h, and_false, if_false, Bool.true_eq_false, false_and, wrapInt, if_true]
        norm_num
        omega

theorem ParseInt_fst (intSize : Nat) (hbits : intSize = 32 ∨ intSize = 64) (s : List Nat) :
    wrapInt intSize (ParseInt intSize s).1 = atoiValue intSize s := by
  cases s with
  | nil =>
    rcases hbits with rfl | rfl <;> decide
  | cons c rest =>
    have hun : (if c = 43 then rest else if c = 45 then rest else c :: rest)
        = unsignedPart (c :: rest) := by
      by_cases h43 : c = 43
      · simp [unsignedPart, h43]
      · by_cases h45 : c = 45
        · simp [unsignedPart, h45]
        · simp [unsignedPart, h43, h45]
    have hw0 : wrapInt intSize 0 = 0 := by
      rcases hbits with rfl | rfl <;> decide
    simp only [ParseInt, hun, ParseUint_eq intSize hbits, atoiValue, leadingDigits]
    generalize unsignedPart (c :: rest) = u
    generalize hv : decimal (u.takeWhile isDigit) = v
    simp only [List.head?_cons, Option.some.injEq]
    by_cases hu : u = []
    · subst hu
      have : v = 0 := by rw [← hv]; rfl
      subst this
      simp [hw0]
    simp only [hu, if_false, false_or]
    by_cases hov : 2 ^ intSize ≤ v
    · simp only [hov, if_true]
      have hlt : 2 ^ intSize - 1 < 2 ^ intSize := Nat.sub_lt (Nat.pow_pos (by decide)) (by decide)
      have hr := parseIntRange_fst intSize hbits (decide (c = 45)) (2 ^ intSize - 1) hlt
      simp only [ne_eq, reduceCtorEq, not_false_eq_true, not_true_eq_false, and_false, if_false]
      rw [hr]
      rcases hbits with rfl | rfl
      · by_cases hc : c = 45 <;> simp [hc]
      · by_cases hc : c = 45 <;> simp [hc]
    simp only [hov, if_false]
    by_cases hall : u.all isDigit = false
    · simp [hall, hw0]
    simp only [hall, if_false, Bool.true_eq_false]
    have hr := parseIntRange_fst intSize hbits (decide (c = 45)) v (by omega)
    simp only [ne_eq, not_true_eq_false, false_and, if_false]
    rw [hr]

theorem decimalFrom_lt (ds : List Nat) (n k : Nat) (hn : n < 10 ^ k)
    (hd : ∀ b ∈ ds, isDigit b = true) : decimalFrom n ds < 10 ^ (k + ds.length) := by
  induction ds generalizing n k with
  | nil => simpa [decimalFrom] using hn
  | cons b ds ih =>
    have hb : isDigit b = true := hd b (List.mem_cons_self b ds)
    simp only [isDigit, decide_eq_true_eq] at hb
    have hstep : n * 10 + (b - 48) < 10 ^ (k + 1) := by
      rw [Nat.pow_succ]; omega
    have := ih (n * 10 + (b - 48)) (k + 1) hstep
      (fun x hx => hd x (List.mem_cons_of_mem b hx))
    rw [decimalFrom_cons, List.length_cons]
    rw [show k + (ds.length + 1) = k + 1 + ds.length by omega]
    exact this

theorem atoiFastLoop_eq (intSize : Nat) (hbits : intSize = 32 ∨ intSize = 64) (bound : Nat)
    (hbound : 10 ^ bound ≤ 2 ^ (intSize - 1)) (s : List Nat) (hb : ∀ b ∈ s, b < 256)
    (n k : Nat) (hn : n < 10 ^ k) (hk : k + s.length ≤ bound) :
    atoiFastLoop intSize s (n : Int)
      = if s.all isDigit = true then some ((decimalFrom n s : Nat) : Int) else none := by
  induction s generalizing n k with
  | nil => simp [atoiFastLoop, decimalFrom]
  | cons ch rest ih =>
    have hch : ch < 256 := hb ch (List.mem_cons_self ch rest)
    simp only [List.length_cons] at hk
    by_cases hd : 48 ≤ ch ∧ ch ≤ 57
    · have hdig : isDigit ch = true := by simp [isDigit, hd]
      have hsub : (ch + 256 - 48) % 256 = ch - 48 := by omega
      have h9 : ¬ ch - 48 > 9 := by omega
      have hstep : n * 10 + (ch - 48) < 10 ^ (k + 1) := by
        rw [Nat.pow_succ]; omega
      have hle : 10 ^ (k + 1) ≤ 10 ^ bound := Nat.pow_le_pow_right (by decide) (by omega)
      have hlt : n * 10 + (ch - 48) < 2 ^ (intSize - 1) := by omega
      have hwrap : wrapInt intSize ((n : Int) * 10 + ((ch - 48 : Nat) : Int))
          = ((n * 10 + (ch - 48) : Nat) : Int) := by
        rw [wrapInt_eq intSize hbits]
        · push_cast; rfl
        · have : (0 : Int) ≤ (n : Int) * 10 + ((ch - 48 : Nat) : Int) := by positivity
          have h2 : (0 : Int) ≤ 2 ^ (intSize - 1) := by positivity
          omega
        · have : ((n * 10 + (ch - 48) : Nat) : Int) < ((2 ^ (intSize - 1) : Nat) : Int) := by
            exact_mod_cast hlt
          push_cast at this
          exact this
      simp only [atoiFastLoop, hsub, h9, if_false, hwrap, List.all_cons, hdig, Bool.true_and,
        decimalFrom_cons]
      exact ih (fun b hb' => hb b (List.mem_cons_of_mem ch hb')) _ (k + 1) hstep (by omega)
    · have hdig : isDigit ch = false := by simp [isDigit, hd]
      have h9 : (ch + 256 - 48) % 256 > 9 := by omega
      simp only [atoiFastLoop, h9, if_true, List.all_cons, hdig, Bool.false_and,
        Bool.false_eq_true, if_false]

theorem takeWhile_eq_self_of_all (s : List Nat) (h : s.all isDigit = true) :
    s.takeWhile isDigit = s := by
  induction s with
  | nil => rfl
  | cons c rest ih =>
    simp only [List.all_cons, Bool.and_eq_true] at h
    simp [List.takeWhile_cons, h.1, ih h.2]

theorem decimal_leading_lt (u : List Nat) :
    decimal (u.takeWhile isDigit) < 10 ^ u.length := by
  have h := decimalFrom_lt (u.takeWhile isDigit) 0 0 (by decide)
    (fun b hb => (List.mem_takeWhile_imp hb))
  have hlen : (u.takeWhile isDigit).length ≤ u.length :=
    (List.takeWhile_sublist isDigit).length_le
  have hpow : 10 ^ (0 + (u.takeWhile isDigit).length) ≤ 10 ^ u.length :=
    Nat.pow_le_pow_right (by decide) (by omega)
  exact lt_of_lt_of_le h hpow

/-- The value returned by `Atoi`, on every byte string. -/
theorem Atoi_fst (intSize : Nat) (hbits : intSize = 32 ∨ intSize = 64) (s : List Nat)
    (hb : ∀ b ∈ s, b < 256) : (Atoi intSize s).1 = atoiValue intSize s := by
  unfold Atoi
  by_cases hfast : (intSize = 32 ∧ 0 < s.length ∧ s.length < 10) ∨
      (intSize = 64 ∧ 0 < s.length ∧ s.length < 19)
  swap
  · simp only [hfast, if_false]
    exact ParseInt_fst intSize hbits s
  simp only [hfast, if_true]
  obtain ⟨bound, hbound, hpos, hlen⟩ : ∃ bound, 10 ^ bound ≤ 2 ^ (intSize - 1) ∧
      0 < s.length ∧ s.length ≤ bound := by
    rcases hfast with ⟨rfl, h1, h2⟩ | ⟨rfl, h1, h2⟩
    · exact ⟨9, by norm_num, h1, by omega⟩
    · exact ⟨18, by norm_num, h1, by omega⟩
  have hsigned : (if (decide (s.head? = some 45 ∨ s.head? = some 43) : Bool) = true
      then s.tail else s) = unsignedPart s := by
    by_cases h45 : s.head? = some 45
    · simp [unsignedPart, h45]
    · by_cases h43 : s.head? = some 43
      · simp [unsignedPart, h43]
      · simp [unsignedPart, h43, h45]
  have hulen : (unsignedPart s).length ≤ bound := by
    unfold unsignedPart
    split
    · simp only [List.length_tail]; omega
    · exact hlen
  have hub : ∀ b ∈ unsignedPart s, b < 256 := by
    intro b hbm
    unfold unsignedPart at hbm
    split at hbm
    · exact hb b (List.mem_of_mem_tail hbm)
    · exact hb b hbm
  have hloop := atoiFastLoop_eq intSize hbits bound hbound (unsignedPart s) hub 0 0
    (by decide) (by omega)
  have hv := decimal_leading_lt (unsignedPart s)
  have hvb : decimal ((unsignedPart s).takeWhile isDigit) < 2 ^ (intSize - 1) :=
    lt_of_lt_of_le hv ((Nat.pow_le_pow_right (by decide) hulen).trans hbound)
  have hpow : 2 ^ (intSize - 1) ≤ 2 ^ intSize := Nat.pow_le_pow_right (by decide) (by omega)
  have hov : ¬ 2 ^ intSize ≤ decimal (leadingDigits s) := by
    unfold leadingDigits; omega
  simp only [hsigned, atoiValue, hov, if_false]
  have hloop' : atoiFastLoop intSize (unsignedPart s) 0
      = if (unsignedPart s).all isDigit = true
        then some ((decimal (unsignedPart s) : Nat) : Int) else none := by
    simpa only [Nat.cast_zero] using hloop
  rw [hloop']
  by_cases hu : unsignedPart s = []
  · have hsg : s.head? = some 45 ∨ s.head? = some 43 := by
      by_contra hns
      have : unsignedPart s = s := by
        unfold unsignedPart
        have : ¬ (s.head? = some 43 ∨ s.head? = some 45) := fun h => hns h.symm
        simp [this]
      rw [this] at hu
      rw [hu] at hpos
      simp at hpos
    simp [hu, hsg]
  have hlen1 : ¬ (unsignedPart s).length < 1 := by
    have := List.length_pos.2 hu
    omega
  simp only [hlen1, and_false, if_false, hu, false_or]
  by_cases hall : (unsignedPart s).all isDigit = true
  · have hld : leadingDigits s = unsignedPart s := takeWhile_eq_self_of_all _ hall
    have hvb' : decimal (unsignedPart s) < 2 ^ (intSize - 1) := by
      rw [← hld]; exact hvb
    have hcast : ((decimal (unsignedPart s) : Nat) : Int) < 2 ^ (intSize - 1) := by
      have : ((decimal (unsignedPart s) : Nat) : Int) < ((2 ^ (intSize - 1) : Nat) : Int) := by
        exact_mod_cast hvb'
      push_cast at this
      exact this
    have hnonneg : (0 : Int) ≤ ((decimal (unsignedPart s) : Nat) : Int) := by positivity
    have h3 : ¬ 2 ^ (intSize - 1) ≤ decimal (unsignedPart s) := by omega
    have h4 : ¬ 2 ^ (intSize - 1) < decimal (unsignedPart s) := by omega
    simp only [hall, if_true, Bool.true_eq_false, if_false, hld, h3, h4, and_false]
    by_cases hneg : s.head? = some 45
    · simp only [hneg, if_true, decide_True]
      exact wrapInt_eq intSize hbits _ (by omega) (by omega)
    · simp [hneg]
  · have hall' : (unsignedPart s).all isDigit = false := by simpa using hall
    simp [hall']

theorem bytesOf_lt (value : String) : ∀ b ∈ bytesOf value, b < 256 := by
  intro b hb
  obtain ⟨u, _, rfl⟩ := List.mem_map.1 hb
  exact u.val.isLt

theorem atoiValue_literal (intSize : Nat) (hbits : intSize = 32 ∨ intSize = 64) (s : List Nat)
    (v : Int) (h : literalValue s = some v) :
    (-2 ^ (intSize - 1) ≤ v ∧ v < 2 ^ (intSize - 1) → atoiValue intSize s = v) ∧
    (2 ^ (intSize - 1) ≤ v → atoiValue intSize s = 2 ^ (intSize - 1) - 1) ∧
    (v < -2 ^ (intSize - 1) → atoiValue intSize s = -2 ^ (intSize - 1)) := by
  unfold literalValue at h
  split at h
  swap
  · simp at h
  rename_i hlit
  obtain ⟨hu, hall⟩ := hlit
  simp only [Option.some.injEq] at h
  have hld : leadingDigits s = unsignedPart s := takeWhile_eq_self_of_all _ hall
  simp only [atoiValue, hld, hu, hall, false_or, Bool.true_eq_false, if_false]
  generalize decimal (unsignedPart s) = d at h ⊢
  by_cases hneg : s.head? = some 45
  · simp only [hneg, if_true] at h
    subst h
    rcases hbits with rfl | rfl
    · norm_num [hneg]
      refine ⟨fun h1 h2 => ?_, fun h1 => ?_, fun h1 => ?_⟩ <;> (try split_ifs) <;>
        (try intros) <;> omega
    · norm_num [hneg]
      refine ⟨fun h1 h2 => ?_, fun h1 => ?_, fun h1 => ?_⟩ <;> (try split_ifs) <;>
        (try intros) <;> omega
  · simp only [hneg, if_false] at h
    subst h
    rcases hbits with rfl | rfl
    · norm_num [hneg]
      refine ⟨fun h1 h2 => ?_, fun h1 => ?_, fun h1 => ?_⟩ <;> (try split_ifs) <;>
        (try intros) <;> omega
    · norm_num [hneg]
      refine ⟨fun h1 h2 => ?_, fun h1 => ?_, fun h1 => ?_⟩ <;> (try split_ifs) <;>
        (try intros) <;> omega

theorem atoiValue_not_literal (intSize : Nat) (s : List Nat) (h : literalValue s = none) :
    (decimal (leadingDigits s) < 2 ^ intSize → atoiValue intSize s = 0) ∧
    (2 ^ intSize ≤ decimal (leadingDigits s) →
      atoiValue intSize s
        = if s.head? = some 45 then -2 ^ (intSize - 1) else 2 ^ (intSize - 1) - 1) := by
  unfold literalValue at h
  split at h
  · simp at h
  rename_i hlit
  have hcond : unsignedPart s = [] ∨ (unsignedPart s).all isDigit = false := by
    by_cases hu : unsignedPart s = []
    · exact Or.inl hu
    · right
      by_contra hall
      exact hlit ⟨hu, by simpa using hall⟩
  constructor
  · intro hlt
    have : ¬ 2 ^ intSize ≤ decimal (leadingDigits s) := by omega
    simp only [atoiValue, this, if_false, hcond, if_true]
  · intro hle
    simp only [atoiValue, hle, if_true, decide_eq_true_eq]

/-- C8, as the code behaves: `currentRunNumber` is what `Atoi` returns, its error dropped.
On a platform with a 32- or 64-bit `int`: it is 0 for the empty (or absent) value; for a
decimal literal it is the integer denoted when that lies in the range of `int`, and the
nearest bound of `int` when it does not; for a value that is not a literal it is 0, unless
its leading digits already exceed the unsigned word, in which case it is the bound of `int`
on the side of the sign. -/
theorem currentRunNumberOf_cases (intSize : Nat) (hbits : intSize = 32 ∨ intSize = 64)
    (value : String) :
    (value = "" → currentRunNumberOf intSize value = 0) ∧
    (∀ v : Int, literalValue (bytesOf value) = some v →
      (-2 ^ (intSize - 1) ≤ v ∧ v < 2 ^ (intSize - 1) →
        currentRunNumberOf intSize value = v) ∧
      (2 ^ (intSize - 1) ≤ v → currentRunNumberOf intSize value = 2 ^ (intSize - 1) - 1) ∧
      (v < -2 ^ (intSize - 1) → currentRunNumberOf intSize value = -2 ^ (intSize - 1))) ∧
    (literalValue (bytesOf value) = none →
      (decimal (leadingDigits (bytesOf value)) < 2 ^ intSize →
        currentRunNumberOf intSize value = 0) ∧
      (2 ^ intSize ≤ decimal (leadingDigits (bytesOf value)) →
        currentRunNumberOf intSize value
          = if (bytesOf value).head? = some 45 then -2 ^ (intSize - 1)
            else 2 ^ (intSize - 1) - 1)) := by
  have heq : currentRunNumberOf intSize value = atoiValue intSize (bytesOf value) :=
    Atoi_fst intSize hbits (bytesOf value) (bytesOf_lt value)
  rw [heq]
  refine ⟨fun h => ?_, fun v hv => atoiValue_literal intSize hbits _ v hv,
    fun h => atoiValue_not_literal intSize _ h⟩
  subst h
  have hnil : bytesOf "" = [] := by decide
  rw [hnil]
  exact (atoiValue_not_literal intSize [] (by decide)).1 (Nat.pow_pos (by decide))

/-- Values of `GITHUB_RUN_NUMBER` on a 64-bit platform: absent, a run number, a literal past
the range of `int` on either side, a word, and digits past the unsigned word followed by a
letter. -/
theorem currentRunNumberOf_cases_examples :
    currentRunNumberOf 64 "" = 0 ∧
    currentRunNumberOf 64 "6" = 6 ∧
    currentRunNumberOf 64 "9223372036854775808" = 2 ^ (64 - 1) - 1 ∧
    currentRunNumberOf 64 "-9223372036854775809" = -2 ^ (64 - 1) ∧
    currentRunNumberOf 64 "abc" = 0 ∧
    currentRunNumberOf 64 "99999999999999999999x" = 2 ^ (64 - 1) - 1 :=
  ⟨(currentRunNumberOf_cases 64 (Or.inr rfl) "").1 rfl,
   ((currentRunNumberOf_cases 64 (Or.inr rfl) "6").2.1 6 (by decide)).1 (by decide),
   ((currentRunNumberOf_cases 64 (Or.inr rfl) "9223372036854775808").2.1
      9223372036854775808 (by decide)).2.1 (by decide),
   ((currentRunNumberOf_cases 64 (Or.inr rfl) "-9223372036854775809").2.1
      (-9223372036854775809) (by decide)).2.2 (by decide),
   ((currentRunNumberOf_cases 64 (Or.inr rfl) "abc").2.2 (by decide)).1 (by decide),
   (((currentRunNumberOf_cases 64 (Or.inr rfl) "99999999999999999999x").2.2
      (by decide)).2 (by decide)).trans (by decide)⟩

/-- C8 as stated fails: "9223372036854775808" is a digit string out of the range of a 64-bit
`int`, and the current run number it yields is not 0 but the largest `int`. -/
theorem currentRunNumberOf_out_of_range :
    literalValue (bytesOf "9223372036854775808") = some 9223372036854775808 ∧
    ¬ ((9223372036854775808 : Int) < 2 ^ (64 - 1)) ∧
    currentRunNumberOf 64 "9223372036854775808" = 9223372036854775807 ∧
    currentRunNumberOf 64 "9223372036854775808" ≠ 0 := by
  refine ⟨by decide, by decide, by decide, by decide⟩

/-! ## The completion barrier -/

theorem countP_set_add {α : Type} (p : α → Bool) (l : List α) (k : Nat) (t t' : α)
    (h : l[k]? = some t) :
    (l.set k t').countP p + (if p t then 1 else 0) = l.countP p + (if p t' then 1 else 0) := by
  induction l generalizing k with
  | nil => simp at h
  | cons a l ih =>
    cases k with
    | zero =>
      simp only [List.getElem?_cons_zero, Option.some.injEq] at h
      subst h
      simp only [List.set_cons_zero, List.countP_cons]
      omega
    | succ k =>
      simp only [List.getElem?_cons_succ] at h
      have := ih k h
      simp only [List.set_cons_succ, List.countP_cons]
      omega

theorem sum_set_add {α : Type} (f : α → Nat) (l : List α) (k : Nat) (t t' : α)
    (h : l[k]? = some t) :
    ((l.set k t').map f).sum + f t = (l.map f).sum + f t' := by
  induction l generalizing k with
  | nil => simp at h
  | cons a l ih =>
    cases k with
    | zero =>
      simp only [List.getElem?_cons_zero, Option.some.injEq] at h
      subst h
      simp only [List.set_cons_zero, List.map_cons, List.sum_cons]
      omega
    | succ k =>
      simp only [List.getElem?_cons_succ] at h
      have := ih k h
      simp only [List.set_cons_succ, List.map_cons, List.sum_cons]
      omega

theorem sound_counter {s : ConcState} (h : s.Sound) :
    s.wg = (s.unfinished : Int) + (s.pc.pending : Int) := by
  have h1 := h.adds_eq
  have h2 := h.dones_eq
  have h3 := h.counter_eq
  have h4 : s.tasks.length = s.tasks.countP Task.isFinished
      + s.tasks.countP (fun t => !t.isFinished) := by
    have := List.length_eq_countP_add_countP Task.isFinished s.tasks
    simpa using this
  have h5 : s.unfinished = s.tasks.countP (fun t => !t.isFinished) := by
    simp [ConcState.unfinished, List.countP_eq_length_filter]
  omega

theorem sound_init (runs : List WorkflowRun) (log : List String) :
    (ConcState.init runs log).Sound :=
  { noPanic := rfl, adds_eq := rfl, dones_eq := rfl, counter_eq := rfl,
    exited := fun h => by simp [ConcState.init] at h }

theorem sound_stepMain (g : Globals) {s s' : ConcState} (h : s.Sound)
    (hs : stepMain g s = some s') : s'.Sound := by
  have hc := sound_counter h
  obtain ⟨h0, h1, h2, h3, h4⟩ := h
  unfold stepMain at hs
  split at hs
  · -- the loop is over
    rename_i hpc
    simp only [Option.some.injEq] at hs
    subst hs
    exact ⟨h0, by simpa [MainPc.pending, hpc] using h1, h2, h3, by simp⟩
  · rename_i run rest hpc
    split at hs
    · -- the run is skipped
      simp only [Option.some.injEq] at hs
      subst hs
      exact ⟨h0, by simpa [MainPc.pending, hpc] using h1, h2, h3, by simp⟩
    · -- `wg.Add(1)`
      simp only [Option.some.injEq] at hs
      subst hs
      simp only [hpc, MainPc.pending] at h1 hc
      refine ⟨?_, ?_, h2, ?_, by simp [wgAdd]⟩
      · simp only [wgAdd, h0, Bool.false_or, decide_eq_false_iff_not]
        omega
      · simp only [wgAdd, MainPc.pending]; omega
      · simp only [wgAdd]; push_cast; omega
  · -- the `go` statement
    rename_i run rest hpc
    simp only [Option.some.injEq] at hs
    subst hs
    simp only [hpc, MainPc.pending] at h1
    refine ⟨h0, ?_, ?_, h3, by simp⟩
    · simp only [List.length_append, List.length_singleton, MainPc.pending]; omega
    · simp [h2, List.countP_append, Task.isFinished]
  · -- `wg.Wait()`
    rename_i hpc
    split at hs
    · rename_i hzero
      simp only [Option.some.injEq] at hs
      subst hs
      simp only [hpc, MainPc.pending] at h1
      refine ⟨h0, by simpa [MainPc.pending] using h1, h2, h3, fun _ => ?_⟩
      have : s.tasks.countP Task.isFinished = s.tasks.length := by
        omega
      exact List.countP_eq_length.1 this
    · simp at hs
  · simp at hs

theorem sound_stepTask (w : World) (g : Globals) {s s' : ConcState} (k : Nat) (h : s.Sound)
    (hne : s.pc ≠ .exited) (hs : stepTask w g s k = some s') : s'.Sound := by
  obtain ⟨h0, h1, h2, h3, h4⟩ := h
  unfold stepTask at hs
  split at hs
  · simp at hs
  · rename_i t ht
    split at hs
    · -- `cancelWorkflow` returns
      rename_i hpc
      simp only [Option.some.injEq] at hs
      subst hs
      have hcount := countP_set_add Task.isFinished s.tasks k t
        { t with pc := .returned (cancelWorkflow w g (k + 1) t.id) } ht
      simp [Task.isFinished, hpc] at hcount
      exact ⟨h0, by simpa using h1, by simpa [hcount] using h2, h3, fun hex => absurd hex hne⟩
    · -- the deferred `wg.Done()`
      rename_i err hpc
      simp only [Option.some.injEq] at hs
      subst hs
      have hcount := countP_set_add Task.isFinished s.tasks k t
        { t with pc := .finished err } ht
      simp [Task.isFinished, hpc] at hcount
      have hle := List.countP_le_length Task.isFinished
        (l := s.tasks.set k { t with pc := .finished err })
      simp only [List.length_set] at hle
      refine ⟨?_, by simpa [wgAdd] using h1, ?_, ?_, fun hex => absurd hex hne⟩
      · simp only [wgAdd, h0, Bool.false_or, decide_eq_false_iff_not]
        omega
      · simp only [wgAdd]; omega
      · simp only [wgAdd]; push_cast; omega
    · simp at hs

theorem sound_step (w : World) (g : Globals) {s s' : ConcState} (a : Action) (h : s.Sound)
    (hs : step w g s a = some s') : s'.Sound := by
  unfold step at hs
  split at hs
  · simp at hs
  · rename_i hne
    have hne' : s.pc ≠ .exited := fun h => hne (Or.inl h)
    cases a with
    | main => exact sound_stepMain g h hs
    | task k => exact sound_stepTask w g k h hne' hs

theorem sound_exec (w : World) (g : Globals) (sched : List Action) {s s' : ConcState}
    (h : s.Sound) (hs : exec w g s sched = some s') : s'.Sound := by
  induction sched generalizing s with
  | nil =>
    simp only [exec, Option.some.injEq] at hs
    exact hs ▸ h
  | cons a rest ih =>
    simp only [exec] at hs
    cases hstep : step w g s a with
    | none => simp [hstep] at hs
    | some s1 =>
      simp only [hstep] at hs
      exact ih (sound_step w g a h hstep) hs

/-- No deadlock: as long as `main` has not returned, some goroutine can move. -/
theorem sound_enabled (w : World) (g : Globals) {s : ConcState} (h : s.Sound)
    (hne : s.pc ≠ .exited) : ∃ a s', step w g s a = some s' := by
  have hc := sound_counter h
  have hp := h.noPanic
  have hmain : (stepMain g s).isSome = true → ∃ a s', step w g s a = some s' := by
    intro hsome
    obtain ⟨s', hs'⟩ := Option.isSome_iff_exists.1 hsome
    exact ⟨.main, s', by simp [step, hne, hp, hs']⟩
  cases hpc : s.pc with
  | looping rest =>
    apply hmain
    cases rest with
    | nil => simp [stepMain, hpc]
    | cons run rest =>
      by_cases hsk : skips g run = true
      · simp [stepMain, hpc, hsk]
      · simp [stepMain, hpc, hsk]
  | added run rest => exact hmain (by simp [stepMain, hpc])
  | exited => exact absurd hpc hne
  | waiting =>
    by_cases hz : s.wg = 0
    · exact hmain (by simp [stepMain, hpc, hz])
    · have hpos : 0 < s.unfinished := by
        simp only [hpc, MainPc.pending] at hc
        omega
      obtain ⟨t, ht⟩ := List.exists_mem_of_length_pos hpos
      obtain ⟨htmem, htfin⟩ := List.mem_filter.1 ht
      obtain ⟨k, hk⟩ := List.getElem?_of_mem htmem
      have htask : (stepTask w g s k).isSome = true := by
        cases htpc : t.pc with
        | started => simp [stepTask, hk, htpc]
        | returned err => simp [stepTask, hk, htpc]
        | finished err => simp [Task.isFinished, htpc] at htfin
      obtain ⟨s', hs'⟩ := Option.isSome_iff_exists.1 htask
      exact ⟨.task k, s', by simp [step, hne, hp, hs']⟩

/-- Every step uses up some of the weight of a state. -/
theorem step_weight_lt (w : World) (g : Globals) {s s' : ConcState} (a : Action)
    (hs : step w g s a = some s') : s'.weight < s.weight := by
  unfold step at hs
  split at hs
  · simp at hs
  cases a with
  | main =>
    simp only [stepMain] at hs
    split at hs
    · rename_i hpc
      simp only [Option.some.injEq] at hs
      subst hs
      simp [ConcState.weight, MainPc.weight, hpc]
    · rename_i run rest hpc
      split at hs
      · simp only [Option.some.injEq] at hs
        subst hs
        simp [ConcState.weight, MainPc.weight, hpc]
      · simp only [Option.some.injEq] at hs
        subst hs
        simp only [ConcState.weight, MainPc.weight, hpc, wgAdd, List.length_cons]
        omega
    · rename_i run rest hpc
      simp only [Option.some.injEq] at hs
      subst hs
      simp [ConcState.weight, MainPc.weight, hpc, TaskPc.weight]
      omega
    · rename_i hpc
      split at hs
      · simp only [Option.some.injEq] at hs
        subst hs
        simp [ConcState.weight, MainPc.weight, hpc]
      · simp at hs
    · simp at hs
  | task k =>
    simp only [stepTask] at hs
    split at hs
    · simp at hs
    · rename_i t ht
      split at hs
      · rename_i hpc
        simp only [Option.some.injEq] at hs
        subst hs
        have hsum := sum_set_add (fun t => t.pc.weight) s.tasks k t
          { t with pc := .returned (cancelWorkflow w g (k + 1) t.id) } ht
        have e1 : (TaskPc.returned (cancelWorkflow w g (k + 1) t.id)).weight = 1 := rfl
        have e2 : TaskPc.started.weight = 2 := rfl
        dsimp only at hsum
        rw [hpc, e1, e2] at hsum
        simp only [ConcState.weight]
        omega
      · rename_i err hpc
        simp only [Option.some.injEq] at hs
        subst hs
        have hsum := sum_set_add (fun t => t.pc.weight) s.tasks k t
          { t with pc := .finished err } ht
        have e1 : (TaskPc.returned err).weight = 1 := rfl
        have e2 : (TaskPc.finished err).weight = 0 := rfl
        dsimp only at hsum
        rw [hpc, e1, e2] at hsum
        simp only [ConcState.weight, wgAdd]
        omega
      · simp at hs

/-- From a sound state, scheduling goroutines that can move leads `main` to return. -/
theorem sound_exits (w : World) (g : Globals) (n : Nat) :
    ∀ s : ConcState, s.Sound → s.weight ≤ n →
      ∃ sched s', exec w g s sched = some s' ∧ s'.pc = .exited := by
  induction n with
  | zero =>
    intro s _ hw
    refine ⟨[], s, rfl, ?_⟩
    cases hpc : s.pc with
    | exited => rfl
    | looping rest => simp [ConcState.weight, MainPc.weight, hpc] at hw
    | added run rest => simp [ConcState.weight, MainPc.weight, hpc] at hw
    | waiting => simp [ConcState.weight, MainPc.weight, hpc] at hw
  | succ n ih =>
    intro s hs hw
    by_cases hex : s.pc = .exited
    · exact ⟨[], s, rfl, hex⟩
    · obtain ⟨a, s1, hstep⟩ := sound_enabled w g hs hex
      have hlt := step_weight_lt w g a hstep
      obtain ⟨sched, s', hexec, hpc⟩ := ih s1 (sound_step w g a hs hstep) (by omega)
      exact ⟨a :: sched, s', by simp [exec, hstep, hexec], hpc⟩

theorem reportsFrom_append (w : World) (g : Globals) (n : Nat) (l l' : List Task) :
    reportsFrom w g n (l ++ l') = reportsFrom w g n l ++ reportsFrom w g (n + l.length) l' := by
  induction l generalizing n with
  | nil => simp [reportsFrom]
  | cons t l ih =>
    rw [List.cons_append, reportsFrom, reportsFrom, ih (n + 1), List.length_cons,
      show n + 1 + l.length = n + (l.length + 1) by omega]
    rfl

theorem reportsFrom_length (w : World) (g : Globals) (n : Nat) (l : List Task) :
    (reportsFrom w g n l).length = l.length := by
  induction l generalizing n with
  | nil => rfl
  | cons t l ih => simp [reportsFrom, ih]

theorem reportsFrom_set (w : World) (g : Globals) (n : Nat) (l : List Task) (k : Nat)
    (t : Task) (pc : TaskPc) (h : l[k]? = some t) :
    reportsFrom w g n (l.set k { t with pc := pc }) = reportsFrom w g n l := by
  induction l generalizing n k with
  | nil => rfl
  | cons a l ih =>
    cases k with
    | zero =>
      simp only [List.getElem?_cons_zero, Option.some.injEq] at h
      subst h
      rfl
    | succ k =>
      simp only [List.getElem?_cons_succ] at h
      simp only [List.set_cons_succ, reportsFrom, ih (n + 1) k h]

theorem reportsFrom_finished (w : World) (g : Globals) (n : Nat) (l : List Task)
    (h : ∀ (k : Nat) (t : Task), l[k]? = some t →
      t.pc = .finished (cancelWorkflow w g (n + k + 1) t.id)) :
    l.map Task.report = (reportsFrom w g n l).map some := by
  induction l generalizing n with
  | nil => rfl
  | cons a l ih =>
    have h0 := h 0 a (by simp)
    have hl : ∀ (k : Nat) (t : Task), l[k]? = some t →
        t.pc = .finished (cancelWorkflow w g (n + 1 + k + 1) t.id) := by
      intro k t hk
      have := h (k + 1) t (by simpa using hk)
      rw [show n + 1 + k + 1 = n + (k + 1) + 1 by omega]
      exact this
    simp only [List.map_cons, reportsFrom, ih (n + 1) hl]
    simp [Task.report, h0]

theorem linked_init (w : World) (g : Globals) (runs : List WorkflowRun) (log : List String) :
    (ConcState.init runs log).Linked w g (mainLoop w g runs { log := log, tasks := [] }) :=
  { loop := rfl, results := fun k t h => by simp [ConcState.init] at h }

theorem linked_stepMain (w : World) (g : Globals) (final : Outcome) {s s' : ConcState}
    (h : s.Linked w g final) (hs : stepMain g s = some s') : s'.Linked w g final := by
  obtain ⟨hloop, hres⟩ := h
  unfold stepMain at hs
  split at hs
  · rename_i hpc
    simp only [Option.some.injEq] at hs
    subst hs
    refine ⟨?_, hres⟩
    simpa [MainPc.rest, ConcState.launched, hpc] using hloop
  · rename_i run rest hpc
    split at hs
    · rename_i hsk
      simp only [Option.some.injEq] at hs
      subst hs
      refine ⟨?_, hres⟩
      simpa [MainPc.rest, ConcState.launched, hpc, mainLoop, hsk] using hloop
    · rename_i hsk
      simp only [Option.some.injEq] at hs
      subst hs
      refine ⟨?_, hres⟩
      simp only [MainPc.rest, ConcState.launched, hpc, mainLoop, hsk] at hloop
      simp only [wgAdd, MainPc.rest, ConcState.launched, reportsFrom_append, reportsFrom,
        Nat.zero_add]
      simpa [reportsFrom_length] using hloop
  · rename_i run rest hpc
    simp only [Option.some.injEq] at hs
    subst hs
    constructor
    · simpa [MainPc.rest, ConcState.launched, hpc] using hloop
    · intro k t hk
      simp only [List.getElem?_append] at hk
      split at hk
      · exact hres k t hk
      · have hmem := List.getElem?_mem hk
        simp only [List.mem_singleton] at hmem
        subst hmem
        exact Or.inl rfl
  · rename_i hpc
    split at hs
    · simp only [Option.some.injEq] at hs
      subst hs
      refine ⟨?_, hres⟩
      simpa [MainPc.rest, ConcState.launched, hpc] using hloop
    · simp at hs
  · simp at hs

theorem launched_set (w : World) (g : Globals) (s : ConcState) (k : Nat) (t : Task)
    (pc : TaskPc) (h : s.tasks[k]? = some t) :
    reportsFrom w g 0
        ({ s with tasks := s.tasks.set k { t with pc := pc } } : ConcState).launched
      = reportsFrom w g 0 s.launched := by
  unfold ConcState.launched
  cases s.pc with
  | added run rest =>
    simp only [reportsFrom_append, reportsFrom_set w g 0 s.tasks k t pc h, List.length_set]
  | looping rest => exact reportsFrom_set w g 0 s.tasks k t pc h
  | waiting => exact reportsFrom_set w g 0 s.tasks k t pc h
  | exited => exact reportsFrom_set w g 0 s.tasks k t pc h

theorem results_set (w : World) (g : Globals) (l : List Task) (k : Nat) (t : Task)
    (pc : TaskPc) (h : l[k]? = some t)
    (hpc : pc = .started ∨ pc = .returned (cancelWorkflow w g (k + 1) t.id) ∨
      pc = .finished (cancelWorkflow w g (k + 1) t.id))
    (hres : ∀ (j : Nat) (u : Task), l[j]? = some u →
      u.pc = .started ∨ u.pc = .returned (cancelWorkflow w g (j + 1) u.id) ∨
        u.pc = .finished (cancelWorkflow w g (j + 1) u.id)) :
    ∀ (j : Nat) (u : Task), (l.set k { t with pc := pc })[j]? = some u →
      u.pc = .started ∨ u.pc = .returned (cancelWorkflow w g (j + 1) u.id) ∨
        u.pc = .finished (cancelWorkflow w g (j + 1) u.id) := by
  intro j u hj
  by_cases hkj : k = j
  · subst hkj
    have hlt : k < l.length := (List.getElem?_eq_some.1 h).1
    rw [List.getElem?_set_self hlt] at hj
    simp only [Option.some.injEq] at hj
    subst hj
    exact hpc
  · rw [List.getElem?_set_ne hkj] at hj
    exact hres j u hj

theorem linked_stepTask (w : World) (g : Globals) (final : Outcome) {s s' : ConcState}
    (k : Nat) (h : s.Linked w g final) (hs : stepTask w g s k = some s') :
    s'.Linked w g final := by
  obtain ⟨hloop, hres⟩ := h
  unfold stepTask at hs
  split at hs
  · simp at hs
  · rename_i t ht
    split at hs
    · rename_i hpc
      simp only [Option.some.injEq] at hs
      subst hs
      constructor
      · rw [launched_set w g s k t _ ht]; exact hloop
      · exact results_set w g s.tasks k t _ ht (Or.inr (Or.inl rfl)) hres
    · rename_i err hpc
      simp only [Option.some.injEq] at hs
      subst hs
      have herr : err = cancelWorkflow w g (k + 1) t.id := by
        rcases hres k t ht with h1 | h1 | h1
        · rw [hpc] at h1; cases h1
        · rw [hpc] at h1; exact TaskPc.returned.inj h1
        · rw [hpc] at h1; cases h1
      constructor
      · have := launched_set w g { s with dones := s.dones + 1 } k t (.finished err) ht
        have h0 : ({ s with dones := s.dones + 1 } : ConcState).launched = s.launched := rfl
        rw [h0] at this
        simp only [wgAdd]
        rw [← hloop, ← this]
        rfl
      · exact results_set w g s.tasks k t _ ht (Or.inr (Or.inr (by rw [herr]))) hres
    · simp at hs

theorem linked_exec (w : World) (g : Globals) (final : Outcome) (sched : List Action)
    {s s' : ConcState} (h : s.Linked w g final) (hs : exec w g s sched = some s') :
    s'.Linked w g final := by
  induction sched generalizing s with
  | nil =>
    simp only [exec, Option.some.injEq] at hs
    exact hs ▸ h
  | cons a rest ih =>
    simp only [exec] at hs
    cases hstep : step w g s a with
    | none => simp [hstep] at hs
    | some s1 =>
      simp only [hstep] at hs
      refine ih ?_ hs
      unfold step at hstep
      split at hstep
      · simp at hstep
      · cases a with
        | main => exact linked_stepMain w g final h hstep
        | task k => exact linked_stepTask w g final k h hstep

/-- The sequential reading of the loop is what every interleaving ends in: when `main` has
returned, it has logged what `mainLoop` logs and the goroutines hold the reports of
`mainLoop`, each finished. -/
theorem exec_exited_eq_mainLoop (w : World) (g : Globals) (runs : List WorkflowRun)
    (log : List String) (sched : List Action) (s : ConcState)
    (h : exec w g (ConcState.init runs log) sched = some s) (hex : s.pc = .exited) :
    s.log = (mainLoop w g runs { log := log, tasks := [] }).log ∧
    s.tasks.map Task.report
      = (mainLoop w g runs { log := log, tasks := [] }).tasks.map some := by
  have hsound := sound_exec w g sched (sound_init runs log) h
  obtain ⟨hloop, hres⟩ := linked_exec w g _ sched (linked_init w g runs log) h
  simp only [hex, MainPc.rest, ConcState.launched, mainLoop] at hloop
  rw [← hloop]
  refine ⟨rfl, reportsFrom_finished w g 0 s.tasks fun k t hk => ?_⟩
  have hfin := hsound.exited hex t (List.getElem?_mem hk)
  rcases hres k t hk with h1 | h1 | h1
  · simp [Task.isFinished, h1] at hfin
  · simp [Task.isFinished, h1] at hfin
  · simpa using h1

/-- C4: dispatch and isolation of failures. Whenever the listing call yields `runs`, then for
every assignment `outcomes` of answers (accepted, refused, transport error) to the goroutines'
requests: the calls of `cancelWorkflow` are exactly one per eligible run, with that run's id,
in list order, and the report of the goroutine launched `k`-th is the result of its own call;
two assignments that agree on the answers to goroutine `k` give goroutine `k` the same
report, whatever they answer to the others; and in every interleaving of the goroutines that
ends with `main` returned, the goroutines that ran are exactly these, each finished with its
report. -/
theorem dispatch_isolated (w : World) (g : Globals) (runs : List WorkflowRun)
    (h : listRuns w g = .ok runs) :
    (∀ outcomes : Nat → Request → Except GoError Response,
      (main (w.answering outcomes) g).cancelCalls
        = (runs.filter (fun run => decide (Eligible g run))).map WorkflowRun.Id ∧
      (main (w.answering outcomes) g).tasks
        = ((runs.filter (fun run => decide (Eligible g run))).enum).map
          (fun kr => { run := kr.2, id := kr.2.Id,
                       logged := cancelWorkflow (w.answering outcomes) g (kr.1 + 1) kr.2.Id })) ∧
    (∀ (outcomes outcomes' : Nat → Request → Except GoError Response) (k : Nat),
      (∀ request, outcomes k request = outcomes' k request) →
      (main (w.answering outcomes) g).tasks[k]? = (main (w.answering outcomes') g).tasks[k]?) ∧
    (∀ (outcomes : Nat → Request → Except GoError Response) (sched : List Action)
      (s : ConcState),
      exec (w.answering outcomes) g (ConcState.init runs [listingLine g]) sched = some s →
      s.pc = .exited →
      s.tasks.map Task.report = (main (w.answering outcomes) g).tasks.map some) := by
  refine ⟨fun outcomes => ?_, ?_, ?_⟩
  · have h' : listRuns (w.answering outcomes) g = .ok runs := by
      rw [listRuns_answering]; exact h
    exact ⟨main_cancelCalls _ g runs h', main_tasks _ g runs h'⟩
  · intro outcomes outcomes' k hk
    have h1 : listRuns (w.answering outcomes) g = .ok runs := by
      rw [listRuns_answering]; exact h
    have h2 : listRuns (w.answering outcomes') g = .ok runs := by
      rw [listRuns_answering]; exact h
    rw [main_tasks _ g runs h1, main_tasks _ g runs h2]
    simp only [List.getElem?_map, List.enum, List.getElem?_enumFrom]
    cases (List.filter (fun run => decide (Eligible g run)) runs)[k]? with
    | none => rfl
    | some run =>
      simp only [Option.map_some', Nat.zero_add]
      have : cancelWorkflow (w.answering outcomes) g (k + 1) run.Id
          = cancelWorkflow (w.answering outcomes') g (k + 1) run.Id := by
        simp [cancelWorkflow, NewRequest, githubRequest, World.answering, hk]
      rw [this]
  · intro outcomes sched s hexec hex
    have h' : listRuns (w.answering outcomes) g = .ok runs := by
      rw [listRuns_answering]; exact h
    have hmain : main (w.answering outcomes) g
        = mainLoop (w.answering outcomes) g runs { log := [listingLine g], tasks := [] } := by
      simp [main, h']
    rw [hmain]
    exact (exec_exited_eq_mainLoop _ g runs _ sched s hexec hex).2

/-- The second goroutine is launched and accepted although the first one is refused, under
the sequential reading and under the schedule `barrierSchedule`. -/
theorem dispatch_isolated_scenario :
    listRuns firstFailsWorld scenarioGlobals = .ok twoRuns ∧
    (main (firstFailsWorld.answering refuseFirst) scenarioGlobals).cancelCalls = [10, 11] ∧
    (main (firstFailsWorld.answering refuseFirst) scenarioGlobals).tasks.map TaskReport.logged
      = [some "failed to cancel workflow #10, status code: 500, body: no", none] ∧
    (main (firstFailsWorld.answering refuseFirst) scenarioGlobals).tasks[1]?
      = (main (firstFailsWorld.answering acceptAll) scenarioGlobals).tasks[1]? ∧
    barrierEnd.tasks.map Task.report
      = (main (firstFailsWorld.answering refuseFirst) scenarioGlobals).tasks.map some :=
  ⟨rfl,
   ((dispatch_isolated firstFailsWorld scenarioGlobals twoRuns rfl).1 refuseFirst).1.trans
     (by decide),
   by decide,
   (dispatch_isolated firstFailsWorld scenarioGlobals twoRuns rfl).2.1 refuseFirst acceptAll 1
     (fun _ => rfl),
   (dispatch_isolated firstFailsWorld scenarioGlobals twoRuns rfl).2.2 refuseFirst
     barrierSchedule barrierEnd (by decide) rfl⟩

/-- C10: the completion barrier. In every state that an interleaving of the main goroutine
and the goroutines it launches reaches from the head of the loop: if `main` has returned,
every goroutine launched has finished; `wg.Add(1)` has been called once per goroutine
launched (and once more when `main` stands between `wg.Add(1)` and the `go` statement);
`wg.Done()` has been called once per goroutine finished; the counter is the difference, it
has not panicked, it is not negative, and when it is zero every goroutine launched has
finished. Moreover the barrier does not hold `main` back for ever: the state can be
continued to one in which `main` has returned. -/
theorem completion_barrier (w : World) (g : Globals) (runs : List WorkflowRun)
    (log : List String) (sched : List Action) (s : ConcState)
    (h : exec w g (ConcState.init runs log) sched = some s) :
    (s.pc = .exited → ∀ t ∈ s.tasks, t.isFinished = true) ∧
    s.adds = s.tasks.length + s.pc.pending ∧
    s.dones = s.tasks.countP Task.isFinished ∧
    s.wg = (s.adds : Int) - (s.dones : Int) ∧
    s.panicked = false ∧
    0 ≤ s.wg ∧
    (s.wg = 0 → ∀ t ∈ s.tasks, t.isFinished = true) ∧
    ∃ sched' s', exec w g s sched' = some s' ∧ s'.pc = .exited := by
  have hs := sound_exec w g sched (sound_init runs log) h
  have hc := sound_counter hs
  refine ⟨hs.exited, hs.adds_eq, hs.dones_eq, hs.counter_eq, hs.noPanic, by omega, ?_,
    sound_exits w g s.weight s hs (Nat.le_refl _)⟩
  intro hzero t ht
  have hun : s.unfinished = 0 := by omega
  have hnil : s.tasks.filter (fun t => !t.isFinished) = [] :=
    List.length_eq_zero.1 hun
  by_contra hfin
  have hmem : t ∈ s.tasks.filter (fun t => !t.isFinished) :=
    List.mem_filter.2 ⟨ht, by simpa using hfin⟩
  rw [hnil] at hmem
  simp at hmem

/-- With two goroutines: `main` returns only after both have finished, and while the first
one has not run its `wg.Done()` the main goroutine cannot leave `wg.Wait()`. -/
theorem completion_barrier_scenario :
    exec firstFailsWorld scenarioGlobals (ConcState.init twoRuns [listingLine scenarioGlobals])
        barrierSchedule
      = some barrierEnd ∧
    (∀ t ∈ barrierEnd.tasks, t.isFinished = true) ∧
    (∀ s,
      exec firstFailsWorld scenarioGlobals (ConcState.init twoRuns [listingLine scenarioGlobals])
        blockedSchedule = some s →
      s.wg = 1 ∧ step firstFailsWorld scenarioGlobals s .main = none) :=
  ⟨by decide,
   (completion_barrier firstFailsWorld scenarioGlobals twoRuns [listingLine scenarioGlobals]
      barrierSchedule barrierEnd
      (by decide)).1 rfl,
   by decide⟩

end RunOverWorkflows
